import Mathlib

/-!
Shallow embedding of `src/set.h` (an AVL-tree implementation of an ordered
set) and proofs of the specification claims about it.

Null pointers are represented by the `nil` constructor; a computation that
would dereference a null pointer in the source returns `none`.  The
`parent` back-pointer of a node is represented by the parent's key, which is
unique in a set; machine arithmetic on the unsigned cached `height` fields
is modelled exactly where it matters, in `getBalance`.
-/

set_option maxHeartbeats 1000000
set_option linter.unusedSectionVars false

namespace AvlSet

universe u

/-- Mirror of `TreeNode` (src/set.h:87): key, cached `height`, cached subtree
size `cnt`, the `parent` back-pointer (stored as the parent's key), and the two
children.  `nil` is the null pointer. -/
inductive Tree (α : Type u) where
  | nil : Tree α
  | node (key : α) (height cnt : Nat) (parent : Option α) (left right : Tree α) : Tree α
deriving DecidableEq

namespace Tree

variable {α : Type u} [LinearOrder α]

/-- Mirror of `height` (src/set.h:99): `t ? t->height : 0`. -/
def height : Tree α → Nat
  | nil => 0
  | node _ h _ _ _ _ => h

/-- Mirror of `cnt` (src/set.h:103): `t ? t->cnt : 0`. -/
def cnt : Tree α → Nat
  | nil => 0
  | node _ _ c _ _ _ => c

/-- Truncation of an unsigned 64-bit value to a 32-bit two's-complement `int`,
as performed by the initialisation `int t_balance = getBalance(t)` where the
subtraction was computed in `size_t`. -/
def toInt32 (n : Nat) : Int :=
  if n % 2 ^ 32 < 2 ^ 31 then ((n % 2 ^ 32 : Nat) : Int)
  else ((n % 2 ^ 32 : Nat) : Int) - 2 ^ 32

/-- Unsigned 64-bit subtraction: `size_t` arithmetic wraps modulo `2 ^ 64`. -/
def usub64 (a b : Nat) : Nat :=
  (a % 2 ^ 64 + (2 ^ 64 - b % 2 ^ 64)) % 2 ^ 64

/-- Mirror of `getBalance` (src/set.h:107): `height(t->right) - height(t->left)`
computed in unsigned `size_t` arithmetic and converted to `int`.  The source
dereferences `t`, so the embedding is `none` on the null tree. -/
def getBalance : Tree α → Option Int
  | nil => none
  | node _ _ _ _ l r => some (toInt32 (usub64 (height r) (height l)))

/-- Mirror of `isKeyEqual` (src/set.h:121): `!(a < b) && !(b < a)`. -/
def isKeyEqual (a b : α) : Bool :=
  !(decide (a < b)) && !(decide (b < a))

/-- The assignment `child->parent = t`, represented by storing the parent's
key (`none` for `nullptr`).  A null child is left untouched. -/
def setParent (p : Option α) : Tree α → Tree α
  | nil => nil
  | node k h c _ l r => node k h c p l r

/-- Mirror of `update` (src/set.h:111): recompute the cached `height` and `cnt`
from the children's cached values, set `t->parent = nullptr`, and re-point the
children's `parent` fields at `t`.  No-op on the null tree. -/
def update : Tree α → Tree α
  | nil => nil
  | node k _ _ _ l r =>
      node k (max (height l) (height r) + 1) (cnt l + 1 + cnt r) none
        (setParent (some k) l) (setParent (some k) r)

/-- Mirror of `rotateRight` (src/set.h:134).  The source dereferences
`u` and `v = u->left` unconditionally, so the embedding is `none` (undefined
behaviour) unless both are non-null. -/
def rotateRight : Tree α → Option (Tree α)
  | node uk uh uc up (node vk vh vc vp vl vr) ur =>
      some (update (node vk vh vc vp vl (update (node uk uh uc up vr ur))))
  | _ => none

/-- Mirror of `rotateLeft` (src/set.h:143); `none` unless `v` and
`u = v->right` are non-null. -/
def rotateLeft : Tree α → Option (Tree α)
  | node vk vh vc vp vl (node uk uh uc up ul ur) =>
      some (update (node uk uh uc up (update (node vk vh vc vp vl ul)) ur))
  | _ => none

/-- Body of `balance` (src/set.h:152) after the initial `update(t)` on a
non-null `t`: compute the balance factor and apply the rotation (preceded by
the inner rotation of a big rotate) dictated by a factor of `+2` or `-2`.
The inner `getBalance(t->right)` / `getBalance(t->left)` calls and the
rotations dereference children without a null check, hence the `none` cases. -/
def balanceAux : Tree α → Option (Tree α)
  | nil => none
  | node k h c p l r =>
      let b := toInt32 (usub64 (height r) (height l))
      if b = 2 then
        match getBalance r with
        | none => none
        | some br =>
            if br < 0 then
              match rotateRight r with
              | none => none
              | some r2 => rotateLeft (node k h c p l r2)
            else rotateLeft (node k h c p l r)
      else if b = -2 then
        match getBalance l with
        | none => none
        | some bl =>
            if bl > 0 then
              match rotateLeft l with
              | none => none
              | some l2 => rotateRight (node k h c p l2 r)
            else rotateRight (node k h c p l r)
      else some (node k h c p l r)

/-- Mirror of `balance` (src/set.h:152): a null tree is a guarded no-op
(`if (!t) return nullptr`), otherwise `update(t)` followed by the rotation
logic of `balanceAux`. -/
def balance : Tree α → Option (Tree α)
  | nil => some nil
  | node k h c p l r => balanceAux (update (node k h c p l r))

/-- Mirror of `findMin` (src/set.h:173): `while (t && t->left) t = t->left`.
Returns the minimum node (with its fields and attached right subtree), or
`nil` when the tree is empty. -/
def findMin : Tree α → Tree α
  | nil => nil
  | node k h c p nil r => node k h c p nil r
  | node _ _ _ _ (node lk lh lc lp ll lr) _ => findMin (node lk lh lc lp ll lr)

/-- Mirror of `findMax` (src/set.h:179). -/
def findMax : Tree α → Tree α
  | nil => nil
  | node k h c p l nil => node k h c p l nil
  | node _ _ _ _ _ (node rk rh rc rp rl rr) => findMax (node rk rh rc rp rl rr)

/-- Mirror of `eraseMin` (src/set.h:185): the source dereferences `t->left`
without a null check on `t`, hence `none` on the null tree. -/
def eraseMin : Tree α → Option (Tree α)
  | nil => none
  | node _ _ _ _ nil r => some r
  | node k h c p (node lk lh lc lp ll lr) r => do
      let l2 ← eraseMin (node lk lh lc lp ll lr)
      balance (node k h c p l2 r)

/-- Mirror of `AVLInsert` (src/set.h:217).  On a null slot a fresh leaf
(`height = 1`, `cnt = 1`, the given parent) is created; since
`isKeyEqual(key, key)` holds, the source then returns it immediately.
Otherwise descend on the comparison and rebalance the current node. -/
def AVLInsert : Tree α → α → Option α → Option (Tree α)
  | nil, key, parent => some (node key 1 1 parent nil nil)
  | node k h c p l r, key, _ =>
      if isKeyEqual k key then some (node k h c p l r)
      else if k < key then do
        let r2 ← AVLInsert r key (some k)
        balance (node k h c p l r2)
      else do
        let l2 ← AVLInsert l key (some k)
        balance (node k h c p l2 r)

/-- Mirror of `AVLErase` (src/set.h:231).  On the matching node with children
`l`, `r`: if `r` is null the subtree becomes `l`; otherwise the minimum node of
`r` is spliced in with children `l` and `eraseMin(r)`.  Every frame ends with
`balance`. -/
def AVLErase : Tree α → α → Option (Tree α)
  | nil, _ => some nil
  | node k h c p l r, key =>
      if isKeyEqual k key then
        match r with
        | nil => balance l
        | node rk rh rc rp rl rr =>
            match findMin (node rk rh rc rp rl rr) with
            | nil => none
            | node mk mh mc mp _ _ => do
                let r2 ← eraseMin (node rk rh rc rp rl rr)
                balance (node mk mh mc mp l r2)
      else if k < key then do
        let r2 ← AVLErase r key
        balance (node k h c p l r2)
      else do
        let l2 ← AVLErase l key
        balance (node k h c p l2 r)

/-- Mirror of `AVLFind` (src/set.h:255): fully null-guarded descent; returns
the matching node or `nil`. -/
def AVLFind : Tree α → α → Tree α
  | nil, _ => nil
  | node k h c p l r, key =>
      if isKeyEqual k key then node k h c p l r
      else if k < key then AVLFind r key
      else AVLFind l key

/-- Mirror of `AVLLowerBound` (src/set.h:266): on an exact match return the
node; descending left, fall back to the current node when the left subtree
yields nothing; descending right, propagate. -/
def AVLLowerBound : Tree α → α → Tree α
  | nil, _ => nil
  | node k h c p l r, key =>
      if isKeyEqual k key then node k h c p l r
      else if key < k then
        match AVLLowerBound l key with
        | nil => node k h c p l r
        | node tk th tc tp tl tr => node tk th tc tp tl tr
      else AVLLowerBound r key

/-- Mirror of `copyTree` (src/set.h:282): `new TreeNode(*from)` copies the
fields, the children are replaced by recursive copies, and the final
`update(to)` recomputes the cached fields and re-points the parents. -/
def copyTree : Tree α → Tree α
  | nil => nil
  | node k h c p l r => update (node k h c p (copyTree l) (copyTree r))

/-- Mirror of `Set::size` (src/set.h:343): the root's cached `cnt`. -/
def size (root : Tree α) : Nat := cnt root

/-- Mirror of `Set::empty` (src/set.h:348): `size() == 0`. -/
def emptySet (root : Tree α) : Bool := size root == 0

/-! ### The mathematical view of a tree: its inorder key sequence and the
true height and size of each subtree, against which the cached fields are
checked. -/

/-- Inorder key sequence of the tree (the sequence a full forward traversal
is supposed to visit). -/
def keys : Tree α → List α
  | nil => []
  | node k _ _ _ l r => keys l ++ k :: keys r

/-- True height of the tree (0 for null, as in the source convention). -/
def realHeight : Tree α → Nat
  | nil => 0
  | node _ _ _ _ l r => max (realHeight l) (realHeight r) + 1

/-- True number of nodes in the tree. -/
def realCnt : Tree α → Nat
  | nil => 0
  | node _ _ _ _ l r => realCnt l + 1 + realCnt r

/-- Key stored at the root; `none` for the null tree. -/
def keyOf : Tree α → Option α
  | nil => none
  | node k _ _ _ _ _ => some k

/-- Left child (null tree for null input). -/
def leftOf : Tree α → Tree α
  | nil => nil
  | node _ _ _ _ l _ => l

/-- Right child (null tree for null input). -/
def rightOf : Tree α → Tree α
  | nil => nil
  | node _ _ _ _ _ r => r

/-- The stored `parent` field of the root node (`none` both for a null tree
and for a root whose parent pointer is null). -/
def rootPar : Tree α → Option α
  | nil => none
  | node _ _ _ p _ _ => p

/-! ### Invariant checkers (executable). -/

/-- BST invariant: at every node all keys of the left subtree are smaller and
all keys of the right subtree larger than the node's key. -/
def isBST : Tree α → Bool
  | nil => true
  | node k _ _ _ l r =>
      ((keys l).all fun x => decide (x < k)) &&
        (((keys r).all fun x => decide (k < x)) && (isBST l && isBST r))

/-- AVL invariant: at every node the true heights of the children differ by at
most one. -/
def isAvl : Tree α → Bool
  | nil => true
  | node _ _ _ _ l r =>
      decide (realHeight l ≤ realHeight r + 1) &&
        (decide (realHeight r ≤ realHeight l + 1) && (isAvl l && isAvl r))

/-- The cached `height` and `cnt` fields equal the true height and size of
every subtree. -/
def cachesOk : Tree α → Bool
  | nil => true
  | node _ h c _ l r =>
      decide (h = max (realHeight l) (realHeight r) + 1) &&
        (decide (c = realCnt l + 1 + realCnt r) && (cachesOk l && cachesOk r))

/-- Every node's stored `parent` field equals `p` for the root and the actual
structural parent's key below. -/
def parentsOk (p : Option α) : Tree α → Bool
  | nil => true
  | node k _ _ q l r =>
      decide (q = p) && (parentsOk (some k) l && parentsOk (some k) r)

/-- Parent fields are structurally correct everywhere below the root (the
root's own field is ignored; it is overwritten by the caller's `update`). -/
def parentsBelow : Tree α → Bool
  | nil => true
  | node k _ _ _ l r => parentsOk (some k) l && parentsOk (some k) r

/-- Full well-formedness of an observable set state: BST, AVL-balanced,
caches exact, and parent pointers exact with a null parent at the root. -/
def WF (t : Tree α) : Bool := isBST t && (isAvl t && (cachesOk t && parentsOk none t))

/-! ### Public operation sequences. -/

/-- A public mutating call on the container. -/
inductive Op (α : Type u) where
  | ins (key : α)
  | del (key : α)
deriving DecidableEq

/-- One public call: `Set::insert` is `AVLInsert(root, value)` with the
default null parent (src/set.h:353), `Set::erase` is `AVLErase(root, value)`
(src/set.h:358). -/
def applyOp (t : Tree α) : Op α → Option (Tree α)
  | Op.ins k => AVLInsert t k none
  | Op.del k => AVLErase t k

/-- Run a sequence of public calls from a given root. -/
def runFrom : Tree α → List (Op α) → Option (Tree α)
  | t, [] => some t
  | t, op :: ops => do
      let t2 ← applyOp t op
      runFrom t2 ops

/-- Run a sequence of public calls on an initially empty set
(`root = nullptr`); `none` records that the source would have dereferenced a
null pointer somewhere along the way. -/
def runOps (ops : List (Op α)) : Option (Tree α) := runFrom nil ops

/-! ### Iterator model.

An iterator holds a node pointer; in the embedding a live position is
identified by the node's key (unique in a set) and the end position by
`none`.  `nextNode`/`prevNode` climb the `parent` back-pointers in the
source; the well-formedness theorems show the stored parent pointers agree
exactly with the structural parent chain, which for the node holding `key`
is the list `ancestors t key`, so the embedding climbs that list. -/

/-- The chain of strict ancestors of the node holding `key`, nearest parent
first (the root last).  This is the chain the `parent` pointers of a
well-formed tree describe. -/
def ancestors : Tree α → α → List (Tree α)
  | nil, _ => []
  | node k h c p l r, key =>
      if isKeyEqual k key then []
      else if k < key then ancestors r key ++ [node k h c p l r]
      else ancestors l key ++ [node k h c p l r]

/-- The loop `while (t->parent && t->parent->right == t) t = t->parent;
return t->parent;` of `nextNode` (src/set.h:204), walking up the ancestor
chain; the pointer comparison `t->parent->right == t` is decided on keys. -/
def climbRight : Option α → List (Tree α) → Option α
  | _, [] => none
  | tk, p :: rest =>
      if keyOf (rightOf p) = tk then climbRight (keyOf p) rest
      else keyOf p

/-- The mirror loop of `prevNode` (src/set.h:212). -/
def climbLeft : Option α → List (Tree α) → Option α
  | _, [] => none
  | tk, p :: rest =>
      if keyOf (leftOf p) = tk then climbLeft (keyOf p) rest
      else keyOf p

/-- Mirror of `nextNode` (src/set.h:201) applied to the node of `root`
holding `k`: jump to the minimum of the right subtree when it exists,
otherwise climb the parent chain while arriving from the right and step to
that parent.  Returns the successor node's key, `none` for end. -/
def nextNode (root : Tree α) (k : α) : Option α :=
  match AVLFind root k with
  | nil => none
  | node _ _ _ _ _ (node rk rh rc rp rl rr) =>
      keyOf (findMin (node rk rh rc rp rl rr))
  | node _ _ _ _ _ nil => climbRight (some k) (ancestors root k)

/-- Mirror of `prevNode` (src/set.h:209). -/
def prevNode (root : Tree α) (k : α) : Option α :=
  match AVLFind root k with
  | nil => none
  | node _ _ _ _ (node lk lh lc lp ll lr) _ =>
      keyOf (findMax (node lk lh lc lp ll lr))
  | node _ _ _ _ nil _ => climbLeft (some k) (ancestors root k)

/-- Mirror of `Set::begin` (src/set.h:412): an iterator at `findMin(root)`
(end when the set is empty). -/
def beginPos (root : Tree α) : Option α := keyOf (findMin root)

/-- Mirror of `iterator::operator--` (src/set.h:379):
`node = node ? prevNode(node) : findMax(parent->root)`. -/
def decPos (root : Tree α) : Option α → Option α
  | none => keyOf (findMax root)
  | some k => prevNode root k

/-- Keys visited by repeatedly applying `operator++` from the given
position until end, with fuel. -/
def iterFwd (root : Tree α) : Nat → Option α → List α
  | 0, _ => []
  | _ + 1, none => []
  | fuel + 1, some k => k :: iterFwd root fuel (nextNode root k)

/-- Keys visited by repeatedly applying `operator--` from the given
position (the positions reached, in order), with fuel. -/
def iterBwd (root : Tree α) : Nat → Option α → List α
  | 0, _ => []
  | fuel + 1, pos =>
      match decPos root pos with
      | none => []
      | some k => k :: iterBwd root fuel (some k)

/-- The full forward traversal `begin()` → `end()`. -/
def traversal (root : Tree α) : List α :=
  iterFwd root (realCnt root + 1) (beginPos root)

/-- The full backward traversal: repeatedly apply `operator--` starting
from `end()`. -/
def traversalBwd (root : Tree α) : List α :=
  iterBwd root (realCnt root + 1) none

/-- All subtrees of a tree (the tree itself included). -/
def subtrees : Tree α → List (Tree α)
  | nil => [nil]
  | node k h c p l r => node k h c p l r :: (subtrees l ++ subtrees r)

/-- The key of the last node of a climb list, with a fallback for the empty
list: the node the climb loop sits on after exhausting the list. -/
def lastKeyD (c : Option α) (A : List (Tree α)) : Option α :=
  match A.getLast? with
  | none => c
  | some P => keyOf P

/-! ### State-passing wrappers for the read-only operations.

Each wrapper returns the tree alongside the operation's result; that the
first component is the argument itself mirrors that the corresponding
`const` member functions of the source contain no write to any node field. -/

/-- `Set::find` as a state transformer (src/set.h:422). -/
def findOp (t : Tree α) (key : α) : Tree α × Tree α := (t, AVLFind t key)

/-- `Set::lower_bound` as a state transformer (src/set.h:427). -/
def lowerBoundOp (t : Tree α) (key : α) : Tree α × Tree α := (t, AVLLowerBound t key)

/-- `Set::size` as a state transformer (src/set.h:343). -/
def sizeOp (t : Tree α) : Tree α × Nat := (t, size t)

/-- `Set::empty` as a state transformer (src/set.h:348). -/
def emptyOp (t : Tree α) : Tree α × Bool := (t, emptySet t)

/-- `Set::begin` as a state transformer (src/set.h:412). -/
def beginOp (t : Tree α) : Tree α × Option α := (t, beginPos t)

/-- `Set::end` as a state transformer (src/set.h:417). -/
def endOp (t : Tree α) : Tree α × Option α := (t, (none : Option α))

/-- `iterator::operator++` as a state transformer (src/set.h:366). -/
def incOp (t : Tree α) (k : α) : Tree α × Option α := (t, nextNode t k)

/-- `iterator::operator--` as a state transformer (src/set.h:379). -/
def decOp (t : Tree α) (pos : Option α) : Tree α × Option α := (t, decPos t pos)

/-- `iterator::operator*` as a state transformer (src/set.h:392): dereference
the node the cursor points at. -/
def derefOp (t : Tree α) (k : α) : Tree α × Option α := (t, keyOf (AVLFind t k))

/-- A concrete run used by the witnesses:
`insert 1; insert 2; insert 3; insert 4; erase 2` (exercises a rotation and a
deletion). -/
def witnessOps : List (Op Int) := [Op.ins 1, Op.ins 2, Op.ins 3, Op.ins 4, Op.del 2]

/-- The state `witnessOps` reaches. -/
def witnessTree : Tree Int :=
  node 3 2 3 none (node 1 1 1 (some 3) nil nil) (node 4 1 1 (some 3) nil nil)

/-- A second concrete run used by the witnesses:
`insert 5; insert 3; insert 8; insert 1; insert 4`. -/
def witnessOps2 : List (Op Int) := [Op.ins 5, Op.ins 3, Op.ins 8, Op.ins 1, Op.ins 4]

/-- The state `witnessOps2` reaches. -/
def witnessTree2 : Tree Int :=
  node 5 3 5 none
    (node 3 2 3 (some 5) (node 1 1 1 (some 3) nil nil) (node 4 1 1 (some 3) nil nil))
    (node 8 1 1 (some 5) nil nil)


/-! ### Basic lemmas. -/

theorem isKeyEqual_iff (a b : α) : isKeyEqual a b = true ↔ a = b := by
  simp only [isKeyEqual, Bool.and_eq_true, Bool.not_eq_true', decide_eq_false_iff_not]
  constructor
  · rintro ⟨h1, h2⟩
    exact le_antisymm (not_lt.mp h2) (not_lt.mp h1)
  · rintro rfl
    exact ⟨lt_irrefl a, lt_irrefl a⟩

theorem isKeyEqual_self (a : α) : isKeyEqual a a = true :=
  (isKeyEqual_iff a a).mpr rfl

theorem isKeyEqual_false {a b : α} (h : a ≠ b) : isKeyEqual a b = false := by
  cases hab : isKeyEqual a b with
  | true => exact absurd ((isKeyEqual_iff a b).mp hab) h
  | false => rfl

/-- The unsigned 64-bit subtraction followed by truncation to a 32-bit `int`
yields the exact signed difference whenever that difference fits in an
`int`. -/
theorem toInt32_usub64 (a b : Nat) (h1 : (a : Int) - b < 2 ^ 31)
    (h2 : -(2 ^ 31) < (a : Int) - b) : toInt32 (usub64 a b) = (a : Int) - b := by
  simp only [toInt32, usub64]
  have hb : b % 2 ^ 64 < 2 ^ 64 := Nat.mod_lt _ (by norm_num)
  have ha : a % 2 ^ 64 < 2 ^ 64 := Nat.mod_lt _ (by norm_num)
  have hma : a % 2 ^ 64 = a - 2 ^ 64 * (a / 2 ^ 64) := by omega
  have hmb : b % 2 ^ 64 = b - 2 ^ 64 * (b / 2 ^ 64) := by omega
  split <;> omega

@[simp] theorem height_nil : (nil : Tree α).height = 0 := rfl

@[simp] theorem height_node (k : α) (h c p l r) : (node k h c p l r).height = h := rfl

@[simp] theorem cnt_nil : (nil : Tree α).cnt = 0 := rfl

@[simp] theorem cnt_node (k : α) (h c p l r) : (node k h c p l r).cnt = c := rfl

@[simp] theorem keys_nil : (nil : Tree α).keys = [] := rfl

@[simp] theorem keys_node (k : α) (h c p l r) :
    (node k h c p l r).keys = keys l ++ k :: keys r := rfl

@[simp] theorem realHeight_nil : (nil : Tree α).realHeight = 0 := rfl

@[simp] theorem realHeight_node (k : α) (h c p l r) :
    (node k h c p l r).realHeight = max (realHeight l) (realHeight r) + 1 := rfl

@[simp] theorem realCnt_nil : (nil : Tree α).realCnt = 0 := rfl

@[simp] theorem realCnt_node (k : α) (h c p l r) :
    (node k h c p l r).realCnt = realCnt l + 1 + realCnt r := rfl

@[simp] theorem keyOf_nil : (nil : Tree α).keyOf = none := rfl

@[simp] theorem keyOf_node (k : α) (h c p l r) : (node k h c p l r).keyOf = some k := rfl

@[simp] theorem rootPar_nil : (nil : Tree α).rootPar = none := rfl

@[simp] theorem rootPar_node (k : α) (h c p l r) : (node k h c p l r).rootPar = p := rfl

@[simp] theorem setParent_nil (p : Option α) : setParent p nil = nil := rfl

@[simp] theorem setParent_node (q : Option α) (k h c p l r) :
    setParent q (node k h c p l r) = node k h c q l r := rfl

@[simp] theorem keys_setParent (p : Option α) (t : Tree α) :
    keys (setParent p t) = keys t := by cases t <;> rfl

@[simp] theorem height_setParent (p : Option α) (t : Tree α) :
    height (setParent p t) = height t := by cases t <;> rfl

@[simp] theorem cnt_setParent (p : Option α) (t : Tree α) :
    cnt (setParent p t) = cnt t := by cases t <;> rfl

@[simp] theorem realHeight_setParent (p : Option α) (t : Tree α) :
    realHeight (setParent p t) = realHeight t := by cases t <;> rfl

@[simp] theorem realCnt_setParent (p : Option α) (t : Tree α) :
    realCnt (setParent p t) = realCnt t := by cases t <;> rfl

@[simp] theorem isBST_setParent (p : Option α) (t : Tree α) :
    isBST (setParent p t) = isBST t := by cases t <;> rfl

@[simp] theorem isAvl_setParent (p : Option α) (t : Tree α) :
    isAvl (setParent p t) = isAvl t := by cases t <;> rfl

@[simp] theorem cachesOk_setParent (p : Option α) (t : Tree α) :
    cachesOk (setParent p t) = cachesOk t := by cases t <;> rfl

@[simp] theorem parentsBelow_setParent (p : Option α) (t : Tree α) :
    parentsBelow (setParent p t) = parentsBelow t := by cases t <;> rfl

@[simp] theorem isBST_nil : isBST (nil : Tree α) = true := rfl

@[simp] theorem isAvl_nil : isAvl (nil : Tree α) = true := rfl

@[simp] theorem cachesOk_nil : cachesOk (nil : Tree α) = true := rfl

@[simp] theorem parentsOk_nil (p : Option α) : parentsOk p (nil : Tree α) = true := rfl

@[simp] theorem parentsBelow_nil : parentsBelow (nil : Tree α) = true := rfl

theorem isBST_node_iff (k : α) (h c p l r) :
    isBST (node k h c p l r) = true ↔
      (∀ x ∈ keys l, x < k) ∧ (∀ x ∈ keys r, k < x) ∧ isBST l = true ∧ isBST r = true := by
  simp [isBST, List.all_eq_true, and_assoc]

theorem isAvl_node_iff (k : α) (h c p l r) :
    isAvl (node k h c p l r) = true ↔
      realHeight l ≤ realHeight r + 1 ∧ realHeight r ≤ realHeight l + 1 ∧
        isAvl l = true ∧ isAvl r = true := by
  simp [isAvl, and_assoc]

theorem cachesOk_node_iff (k : α) (h c p l r) :
    cachesOk (node k h c p l r) = true ↔
      h = max (realHeight l) (realHeight r) + 1 ∧ c = realCnt l + 1 + realCnt r ∧
        cachesOk l = true ∧ cachesOk r = true := by
  simp [cachesOk, and_assoc]

theorem parentsOk_node_iff (q : Option α) (k h c p l r) :
    parentsOk q (node k h c p l r) = true ↔
      p = q ∧ parentsOk (some k) l = true ∧ parentsOk (some k) r = true := by
  simp [parentsOk, and_assoc]

theorem parentsBelow_node_iff (k : α) (h c p l r) :
    parentsBelow (node k h c p l r) = true ↔
      parentsOk (some k) l = true ∧ parentsOk (some k) r = true := by
  simp [parentsBelow]

theorem parentsBelow_of_parentsOk {p : Option α} {t : Tree α}
    (h : parentsOk p t = true) : parentsBelow t = true := by
  cases t with
  | nil => rfl
  | node k hh c q l r =>
      rw [parentsOk_node_iff] at h
      rw [parentsBelow_node_iff]
      exact ⟨h.2.1, h.2.2⟩

theorem setParent_eq_self {p : Option α} {t : Tree α}
    (h : parentsOk p t = true) : setParent p t = t := by
  cases t with
  | nil => rfl
  | node k hh c q l r =>
      rw [parentsOk_node_iff] at h
      rw [setParent_node, h.1]

theorem parentsOk_setParent (q : Option α) {t : Tree α}
    (h : parentsBelow t = true) : parentsOk q (setParent q t) = true := by
  cases t with
  | nil => rfl
  | node k hh c p l r =>
      rw [parentsBelow_node_iff] at h
      rw [setParent_node, parentsOk_node_iff]
      exact ⟨rfl, h.1, h.2⟩

theorem height_eq_realHeight {t : Tree α} (h : cachesOk t = true) :
    height t = realHeight t := by
  cases t with
  | nil => rfl
  | node k hh c p l r =>
      rw [cachesOk_node_iff] at h
      rw [height_node, realHeight_node, h.1]

theorem cnt_eq_realCnt {t : Tree α} (h : cachesOk t = true) :
    cnt t = realCnt t := by
  cases t with
  | nil => rfl
  | node k hh c p l r =>
      rw [cachesOk_node_iff] at h
      rw [cnt_node, realCnt_node, h.2.1]

theorem length_keys (t : Tree α) : (keys t).length = realCnt t := by
  induction t with
  | nil => rfl
  | node k h c p l r ihl ihr => simp [keys, realCnt, ihl, ihr]; omega

theorem WF_iff (t : Tree α) :
    WF t = true ↔ isBST t = true ∧ isAvl t = true ∧ cachesOk t = true ∧
      parentsOk none t = true := by
  simp [WF, and_assoc]

@[simp] theorem setParent_setParent (p q : Option α) (t : Tree α) :
    setParent p (setParent q t) = setParent p t := by cases t <;> rfl

/-! ### Computation lemmas for `update`, the rotations and `balance`. -/

theorem update_eq (k : α) (h c : Nat) (p : Option α) (l r : Tree α)
    (hcl : cachesOk l = true) (hcr : cachesOk r = true) :
    update (node k h c p l r) =
      node k (max (realHeight l) (realHeight r) + 1) (realCnt l + 1 + realCnt r) none
        (setParent (some k) l) (setParent (some k) r) := by
  simp only [update, height_eq_realHeight hcl, height_eq_realHeight hcr,
    cnt_eq_realCnt hcl, cnt_eq_realCnt hcr]

theorem getBalance_node (k : α) (h c : Nat) (p : Option α) (l r : Tree α) :
    getBalance (node k h c p l r) = some (toInt32 (usub64 (height r) (height l))) := rfl

theorem balance_node_def (k : α) (h c : Nat) (p : Option α) (l r : Tree α) :
    balance (node k h c p l r) = balanceAux (update (node k h c p l r)) := rfl

theorem balanceAux_central (k : α) (h c : Nat) (p : Option α) (l r : Tree α)
    (h2 : toInt32 (usub64 (height r) (height l)) ≠ 2)
    (hm2 : toInt32 (usub64 (height r) (height l)) ≠ -2) :
    balanceAux (node k h c p l r) = some (node k h c p l r) := by
  simp only [balanceAux]
  rw [if_neg h2, if_neg hm2]

theorem balanceAux_right_single (k : α) (h c : Nat) (p : Option α) (l : Tree α)
    (rk : α) (rh rc : Nat) (rp : Option α) (rl rr : Tree α)
    (hcond : toInt32 (usub64 (height (node rk rh rc rp rl rr)) (height l)) = 2)
    (hbr : ¬ toInt32 (usub64 (height rr) (height rl)) < 0) :
    balanceAux (node k h c p l (node rk rh rc rp rl rr)) =
      rotateLeft (node k h c p l (node rk rh rc rp rl rr)) := by
  simp only [balanceAux, getBalance_node]
  rw [if_pos hcond, if_neg hbr]

theorem balanceAux_right_double (k : α) (h c : Nat) (p : Option α) (l : Tree α)
    (rk : α) (rh rc : Nat) (rp : Option α) (rl rr : Tree α) (r2 : Tree α)
    (hcond : toInt32 (usub64 (height (node rk rh rc rp rl rr)) (height l)) = 2)
    (hbr : toInt32 (usub64 (height rr) (height rl)) < 0)
    (hrot : rotateRight (node rk rh rc rp rl rr) = some r2) :
    balanceAux (node k h c p l (node rk rh rc rp rl rr)) =
      rotateLeft (node k h c p l r2) := by
  simp only [balanceAux, getBalance_node, hrot]
  rw [if_pos hcond, if_pos hbr]

theorem balanceAux_left_single (k : α) (h c : Nat) (p : Option α)
    (lk : α) (lh lc : Nat) (lp : Option α) (ll lr : Tree α) (r : Tree α)
    (h2 : toInt32 (usub64 (height r) (height (node lk lh lc lp ll lr))) ≠ 2)
    (hcond : toInt32 (usub64 (height r) (height (node lk lh lc lp ll lr))) = -2)
    (hbl : ¬ toInt32 (usub64 (height lr) (height ll)) > 0) :
    balanceAux (node k h c p (node lk lh lc lp ll lr) r) =
      rotateRight (node k h c p (node lk lh lc lp ll lr) r) := by
  simp only [balanceAux, getBalance_node]
  rw [if_neg h2, if_pos hcond, if_neg hbl]

theorem balanceAux_left_double (k : α) (h c : Nat) (p : Option α)
    (lk : α) (lh lc : Nat) (lp : Option α) (ll lr : Tree α) (r : Tree α) (l2 : Tree α)
    (h2 : toInt32 (usub64 (height r) (height (node lk lh lc lp ll lr))) ≠ 2)
    (hcond : toInt32 (usub64 (height r) (height (node lk lh lc lp ll lr))) = -2)
    (hbl : toInt32 (usub64 (height lr) (height ll)) > 0)
    (hrot : rotateLeft (node lk lh lc lp ll lr) = some l2) :
    balanceAux (node k h c p (node lk lh lc lp ll lr) r) =
      rotateRight (node k h c p l2 r) := by
  simp only [balanceAux, getBalance_node, hrot]
  rw [if_neg h2, if_pos hcond, if_pos hbl]

theorem rotateRight_eq (uk : α) (uh uc : Nat) (up : Option α)
    (vk : α) (vh vc : Nat) (vp : Option α) (vl vr ur : Tree α)
    (hvl : cachesOk vl = true) (hvr : cachesOk vr = true) (hur : cachesOk ur = true) :
    rotateRight (node uk uh uc up (node vk vh vc vp vl vr) ur) =
      some (node vk (max (realHeight vl) (max (realHeight vr) (realHeight ur) + 1) + 1)
        (realCnt vl + 1 + (realCnt vr + 1 + realCnt ur)) none
        (setParent (some vk) vl)
        (node uk (max (realHeight vr) (realHeight ur) + 1) (realCnt vr + 1 + realCnt ur)
          (some vk) (setParent (some uk) vr) (setParent (some uk) ur))) := by
  simp only [rotateRight, update, height_setParent, cnt_setParent, height_node, cnt_node,
    setParent_node, height_eq_realHeight hvl, height_eq_realHeight hvr,
    height_eq_realHeight hur, cnt_eq_realCnt hvl, cnt_eq_realCnt hvr, cnt_eq_realCnt hur]

theorem rotateLeft_eq (vk : α) (vh vc : Nat) (vp : Option α)
    (uk : α) (uh uc : Nat) (up : Option α) (vl ul ur : Tree α)
    (hvl : cachesOk vl = true) (hul : cachesOk ul = true) (hur : cachesOk ur = true) :
    rotateLeft (node vk vh vc vp vl (node uk uh uc up ul ur)) =
      some (node uk (max (max (realHeight vl) (realHeight ul) + 1) (realHeight ur) + 1)
        (realCnt vl + 1 + realCnt ul + 1 + realCnt ur) none
        (node vk (max (realHeight vl) (realHeight ul) + 1) (realCnt vl + 1 + realCnt ul)
          (some uk) (setParent (some vk) vl) (setParent (some vk) ul))
        (setParent (some uk) ur)) := by
  simp only [rotateLeft, update, height_setParent, cnt_setParent, height_node, cnt_node,
    setParent_node, height_eq_realHeight hvl, height_eq_realHeight hul,
    height_eq_realHeight hur, cnt_eq_realCnt hvl, cnt_eq_realCnt hul, cnt_eq_realCnt hur]

/-- Correctness of one `balance` call (src/set.h:152) on a node whose children
satisfy the invariants and whose heights differ by at most two: the call
succeeds, preserves the inorder key sequence, restores every invariant, and
the resulting height is `max` or `max + 1` of the children's heights — exactly
`max + 1` when no rotation was needed. -/
theorem balance_spec (k : α) (h c : Nat) (p : Option α) (l r : Tree α)
    (hkl : ∀ x ∈ keys l, x < k) (hkr : ∀ x ∈ keys r, k < x)
    (hbl : isBST l = true) (hbr : isBST r = true)
    (hal : isAvl l = true) (har : isAvl r = true)
    (hcl : cachesOk l = true) (hcr : cachesOk r = true)
    (hpl : parentsBelow l = true) (hpr : parentsBelow r = true)
    (hd1 : realHeight l ≤ realHeight r + 2) (hd2 : realHeight r ≤ realHeight l + 2) :
    ∃ t2, balance (node k h c p l r) = some t2 ∧
      keys t2 = keys l ++ k :: keys r ∧
      isBST t2 = true ∧ isAvl t2 = true ∧ cachesOk t2 = true ∧
      parentsOk none t2 = true ∧
      max (realHeight l) (realHeight r) ≤ realHeight t2 ∧
      realHeight t2 ≤ max (realHeight l) (realHeight r) + 1 ∧
      (realHeight l ≤ realHeight r + 1 → realHeight r ≤ realHeight l + 1 →
        realHeight t2 = max (realHeight l) (realHeight r) + 1) := by
  have hb0 : balance (node k h c p l r) =
      balanceAux (node k (max (realHeight l) (realHeight r) + 1) (realCnt l + 1 + realCnt r)
        none (setParent (some k) l) (setParent (some k) r)) := by
    rw [balance_node_def, update_eq k h c p l r hcl hcr]
  by_cases hR2 : realHeight r = realHeight l + 2
  · -- right-heavy: a left (possibly big) rotation
    rcases r with _ | ⟨rk, rh, rc, rp, rl, rr⟩
    · rw [realHeight_nil] at hR2; omega
    rw [isAvl_node_iff] at har
    obtain ⟨hra1, hra2, harl, harr⟩ := har
    rw [cachesOk_node_iff] at hcr
    obtain ⟨hrh, hrc, hcrl, hcrr⟩ := hcr
    rw [isBST_node_iff] at hbr
    obtain ⟨hbr1, hbr2, hbrl, hbrr⟩ := hbr
    rw [parentsBelow_node_iff] at hpr
    obtain ⟨hprl, hprr⟩ := hpr
    rw [realHeight_node] at hR2
    simp only [setParent_node] at hb0
    have hk_rk : k < rk := hkr rk (by simp)
    have hcond : toInt32 (usub64 (height (node rk rh rc (some k) rl rr))
        (height (setParent (some k) l))) = 2 := by
      rw [height_node, hrh, height_setParent, height_eq_realHeight hcl,
        toInt32_usub64 _ _ (by push_cast; omega) (by push_cast; omega)]
      push_cast
      omega
    by_cases hneg : realHeight rr < realHeight rl
    · -- big right-left rotation: `rl` leans the inner subtree
      rcases rl with _ | ⟨sk, sh, sc, sp2, sl, sr⟩
      · rw [realHeight_nil] at hneg; omega
      rw [isAvl_node_iff] at harl
      obtain ⟨hsa1, hsa2, hasl, hasr⟩ := harl
      rw [cachesOk_node_iff] at hcrl
      obtain ⟨hsh, hsc, hcsl, hcsr⟩ := hcrl
      rw [isBST_node_iff] at hbrl
      obtain ⟨hbs1, hbs2, hbsl, hbsr⟩ := hbrl
      rw [parentsOk_node_iff] at hprl
      obtain ⟨-, hpsl, hpsr⟩ := hprl
      rw [realHeight_node] at hneg hra1 hra2 hR2
      have hk_sk : k < sk := hkr sk (by simp)
      have hsk_rk : sk < rk := hbr1 sk (by simp)
      have hin : toInt32 (usub64 (height rr) (height (node sk sh sc sp2 sl sr))) < 0 := by
        rw [height_eq_realHeight hcrr, height_node, hsh,
          toInt32_usub64 _ _ (by push_cast; omega) (by push_cast; omega)]
        push_cast
        omega
      have hrot := rotateRight_eq rk rh rc (some k) sk sh sc sp2 sl sr rr hcsl hcsr hcrr
      have hcaps : cachesOk (node rk (max (realHeight sr) (realHeight rr) + 1)
          (realCnt sr + 1 + realCnt rr) (some sk)
          (setParent (some rk) sr) (setParent (some rk) rr)) = true := by
        rw [cachesOk_node_iff]
        simp [hcsr, hcrr]
      have hfin : balance (node k h c p l (node rk rh rc rp (node sk sh sc sp2 sl sr) rr)) =
          some (node sk
            (max (max (realHeight l) (realHeight sl) + 1)
              (max (realHeight sr) (realHeight rr) + 1) + 1)
            (realCnt l + 1 + realCnt sl + 1 + (realCnt sr + 1 + realCnt rr)) none
            (node k (max (realHeight l) (realHeight sl) + 1) (realCnt l + 1 + realCnt sl)
              (some sk) (setParent (some k) l) (setParent (some k) sl))
            (node rk (max (realHeight sr) (realHeight rr) + 1) (realCnt sr + 1 + realCnt rr)
              (some sk) (setParent (some rk) sr) (setParent (some rk) rr))) := by
        rw [hb0, balanceAux_right_double _ _ _ _ _ _ _ _ _ _ _ _ hcond hin hrot,
          rotateLeft_eq _ _ _ _ _ _ _ _ _ _ _ (by simpa using hcl) (by simpa using hcsl) hcaps]
        simp [setParent_setParent]
      refine ⟨_, hfin, ?_, ?_, ?_, ?_, ?_, ?_, ?_, ?_⟩
      · simp [keys_node, keys_setParent, List.append_assoc]
      · have hallk : ∀ x, x ∈ keys sl ∨ x = sk ∨ x ∈ keys sr ∨ x = rk ∨ x ∈ keys rr →
            k < x := by
          intro x hx
          apply hkr
          simp only [keys_node, List.mem_append, List.mem_cons]
          tauto
        simp only [isBST_node_iff, keys_node, keys_setParent, isBST_setParent,
          List.mem_append, List.mem_cons]
        refine ⟨?_, ?_, ⟨hkl, ?_, hbl, hbsl⟩, ?_, hbr2, hbsr, hbrr⟩
        · rintro x (hx | rfl | hx)
          · exact lt_trans (hkl x hx) hk_sk
          · exact hk_sk
          · exact hbs1 x hx
        · rintro x (hx | rfl | hx)
          · exact hbs2 x hx
          · exact hsk_rk
          · exact lt_trans hsk_rk (hbr2 x hx)
        · intro x hx
          exact hallk x (Or.inl hx)
        · intro x hx
          exact hbr1 x (by simp only [keys_node, List.mem_append, List.mem_cons]; tauto)
      · simp only [isAvl_node_iff, realHeight_node, realHeight_setParent, isAvl_setParent,
          hal, hasl, hasr, harr, and_true, true_and]
        omega
      · simp only [cachesOk_node_iff, realHeight_node, realHeight_setParent,
          realCnt_node, realCnt_setParent, cachesOk_setParent, hcl, hcsl, hcsr, hcrr,
          and_true, true_and]
      · simp only [parentsOk_node_iff]
        exact ⟨trivial, ⟨trivial, parentsOk_setParent _ hpl,
          parentsOk_setParent _ (parentsBelow_of_parentsOk hpsl)⟩,
          trivial, parentsOk_setParent _ (parentsBelow_of_parentsOk hpsr),
          parentsOk_setParent _ (parentsBelow_of_parentsOk hprr)⟩
      · simp only [realHeight_node, realHeight_setParent]
        omega
      · simp only [realHeight_node, realHeight_setParent]
        omega
      · intro hx1 hx2
        simp only [realHeight_node, realHeight_setParent] at hx1 hx2 ⊢
        omega
    · -- single left rotation
      have hin : ¬ toInt32 (usub64 (height rr) (height rl)) < 0 := by
        rw [height_eq_realHeight hcrr, height_eq_realHeight hcrl,
          toInt32_usub64 _ _ (by push_cast; omega) (by push_cast; omega)]
        push_cast
        omega
      have hfin : balance (node k h c p l (node rk rh rc rp rl rr)) =
          some (node rk
            (max (max (realHeight l) (realHeight rl) + 1) (realHeight rr) + 1)
            (realCnt l + 1 + realCnt rl + 1 + realCnt rr) none
            (node k (max (realHeight l) (realHeight rl) + 1) (realCnt l + 1 + realCnt rl)
              (some rk) (setParent (some k) l) (setParent (some k) rl))
            (setParent (some rk) rr)) := by
        rw [hb0, balanceAux_right_single _ _ _ _ _ _ _ _ _ _ _ hcond hin,
          rotateLeft_eq _ _ _ _ _ _ _ _ _ _ _ (by simpa using hcl) hcrl hcrr]
        simp [setParent_setParent]
      refine ⟨_, hfin, ?_, ?_, ?_, ?_, ?_, ?_, ?_, ?_⟩
      · simp [keys_node, keys_setParent, List.append_assoc]
      · simp only [isBST_node_iff, keys_node, keys_setParent, isBST_setParent,
          List.mem_append, List.mem_cons]
        refine ⟨?_, hbr2, ⟨hkl, ?_, hbl, hbrl⟩, hbrr⟩
        · rintro x (hx | rfl | hx)
          · exact lt_trans (hkl x hx) hk_rk
          · exact hk_rk
          · exact hbr1 x hx
        · intro x hx
          exact hkr x (by simp only [keys_node, List.mem_append, List.mem_cons]; tauto)
      · simp only [isAvl_node_iff, realHeight_node, realHeight_setParent, isAvl_setParent,
          hal, harl, harr, and_true, true_and]
        omega
      · simp only [cachesOk_node_iff, realHeight_node, realHeight_setParent,
          realCnt_node, realCnt_setParent, cachesOk_setParent, hcl, hcrl, hcrr,
          and_true, true_and]
      · simp only [parentsOk_node_iff]
        exact ⟨trivial, ⟨trivial, parentsOk_setParent _ hpl,
          parentsOk_setParent _ (parentsBelow_of_parentsOk hprl)⟩,
          parentsOk_setParent _ (parentsBelow_of_parentsOk hprr)⟩
      · simp only [realHeight_node, realHeight_setParent]
        omega
      · simp only [realHeight_node, realHeight_setParent]
        omega
      · intro hx1 hx2
        simp only [realHeight_node, realHeight_setParent] at hx1 hx2 ⊢
        omega
  · by_cases hL2 : realHeight l = realHeight r + 2
    · -- left-heavy: a right (possibly big) rotation
      rcases l with _ | ⟨lk, lh, lc, lp, ll, lr⟩
      · rw [realHeight_nil] at hL2; omega
      rw [isAvl_node_iff] at hal
      obtain ⟨hla1, hla2, hall, halr⟩ := hal
      rw [cachesOk_node_iff] at hcl
      obtain ⟨hlh, hlc, hcll, hclr⟩ := hcl
      rw [isBST_node_iff] at hbl
      obtain ⟨hbl1, hbl2, hbll, hblr⟩ := hbl
      rw [parentsBelow_node_iff] at hpl
      obtain ⟨hpll, hplr⟩ := hpl
      rw [realHeight_node] at hL2
      simp only [setParent_node] at hb0
      have hlk_k : lk < k := hkl lk (by simp)
      have hbridge : toInt32 (usub64 (height (setParent (some k) r))
          (height (node lk lh lc (some k) ll lr))) = -2 := by
        rw [height_node, hlh, height_setParent, height_eq_realHeight hcr,
          toInt32_usub64 _ _ (by push_cast; omega) (by push_cast; omega)]
        push_cast
        omega
      by_cases hpos : realHeight ll < realHeight lr
      · -- big left-right rotation
        rcases lr with _ | ⟨tk, th, tc, tp, tl, tr⟩
        · rw [realHeight_nil] at hpos; omega
        rw [isAvl_node_iff] at halr
        obtain ⟨hta1, hta2, hatl, hatr⟩ := halr
        rw [cachesOk_node_iff] at hclr
        obtain ⟨hth, htc, hctl, hctr⟩ := hclr
        rw [isBST_node_iff] at hblr
        obtain ⟨hbt1, hbt2, hbtl, hbtr⟩ := hblr
        rw [parentsOk_node_iff] at hplr
        obtain ⟨-, hptl, hptr⟩ := hplr
        rw [realHeight_node] at hpos hla1 hla2 hL2
        have htk_k : tk < k := hkl tk (by simp)
        have hlk_tk : lk < tk := hbl2 tk (by simp)
        have hin : toInt32 (usub64 (height (node tk th tc tp tl tr)) (height ll)) > 0 := by
          rw [height_eq_realHeight hcll, height_node, hth,
            toInt32_usub64 _ _ (by push_cast; omega) (by push_cast; omega)]
          push_cast
          omega
        have hrot := rotateLeft_eq lk lh lc (some k) tk th tc tp ll tl tr hcll hctl hctr
        have hcaps : cachesOk (node lk (max (realHeight ll) (realHeight tl) + 1)
            (realCnt ll + 1 + realCnt tl) (some tk)
            (setParent (some lk) ll) (setParent (some lk) tl)) = true := by
          rw [cachesOk_node_iff]
          simp [hcll, hctl]
        have hfin : balance (node k h c p (node lk lh lc lp ll (node tk th tc tp tl tr)) r) =
            some (node tk
              (max (max (realHeight ll) (realHeight tl) + 1)
                (max (realHeight tr) (realHeight r) + 1) + 1)
              (realCnt ll + 1 + realCnt tl + 1 + (realCnt tr + 1 + realCnt r)) none
              (node lk (max (realHeight ll) (realHeight tl) + 1) (realCnt ll + 1 + realCnt tl)
                (some tk) (setParent (some lk) ll) (setParent (some lk) tl))
              (node k (max (realHeight tr) (realHeight r) + 1) (realCnt tr + 1 + realCnt r)
                (some tk) (setParent (some k) tr) (setParent (some k) r))) := by
          rw [hb0, balanceAux_left_double _ _ _ _ _ _ _ _ _ _ _ _
              (by rw [hbridge]; omega) hbridge hin hrot,
            rotateRight_eq _ _ _ _ _ _ _ _ _ _ _ hcaps (by simpa using hctr)
              (by simpa using hcr)]
          simp [setParent_setParent]
        refine ⟨_, hfin, ?_, ?_, ?_, ?_, ?_, ?_, ?_, ?_⟩
        · simp [keys_node, keys_setParent, List.append_assoc]
        · have hallk : ∀ x, x ∈ keys ll ∨ x = lk ∨ x ∈ keys tl ∨ x = tk ∨ x ∈ keys tr →
              x < k := by
            intro x hx
            apply hkl
            simp only [keys_node, List.mem_append, List.mem_cons]
            tauto
          simp only [isBST_node_iff, keys_node, keys_setParent, isBST_setParent,
            List.mem_append, List.mem_cons]
          refine ⟨?_, ?_, ⟨hbl1, ?_, hbll, hbtl⟩, ?_, hkr, hbtr, hbr⟩
          · rintro x (hx | rfl | hx)
            · exact lt_trans (hbl1 x hx) hlk_tk
            · exact hlk_tk
            · exact hbt1 x hx
          · rintro x (hx | rfl | hx)
            · exact hbt2 x hx
            · exact htk_k
            · exact lt_trans htk_k (hkr x hx)
          · intro x hx
            exact hbl2 x (by simp only [keys_node, List.mem_append, List.mem_cons]; tauto)
          · intro x hx
            exact hallk x (by tauto)
        · simp only [isAvl_node_iff, realHeight_node, realHeight_setParent, isAvl_setParent,
            hall, hatl, hatr, har, and_true, true_and]
          omega
        · simp only [cachesOk_node_iff, realHeight_node, realHeight_setParent,
            realCnt_node, realCnt_setParent, cachesOk_setParent, hcll, hctl, hctr, hcr,
            and_true, true_and]
        · simp only [parentsOk_node_iff]
          exact ⟨trivial, ⟨trivial, parentsOk_setParent _ (parentsBelow_of_parentsOk hpll),
            parentsOk_setParent _ (parentsBelow_of_parentsOk hptl)⟩,
            trivial, parentsOk_setParent _ (parentsBelow_of_parentsOk hptr),
            parentsOk_setParent _ hpr⟩
        · simp only [realHeight_node, realHeight_setParent]
          omega
        · simp only [realHeight_node, realHeight_setParent]
          omega
        · intro hx1 hx2
          simp only [realHeight_node, realHeight_setParent] at hx1 hx2 ⊢
          omega
      · -- single right rotation
        have hin : ¬ toInt32 (usub64 (height lr) (height ll)) > 0 := by
          rw [height_eq_realHeight hcll, height_eq_realHeight hclr,
            toInt32_usub64 _ _ (by push_cast; omega) (by push_cast; omega)]
          push_cast
          omega
        have hfin : balance (node k h c p (node lk lh lc lp ll lr) r) =
            some (node lk
              (max (realHeight ll) (max (realHeight lr) (realHeight r) + 1) + 1)
              (realCnt ll + 1 + (realCnt lr + 1 + realCnt r)) none
              (setParent (some lk) ll)
              (node k (max (realHeight lr) (realHeight r) + 1) (realCnt lr + 1 + realCnt r)
                (some lk) (setParent (some k) lr) (setParent (some k) r))) := by
          rw [hb0, balanceAux_left_single _ _ _ _ _ _ _ _ _ _ _
              (by rw [hbridge]; omega) hbridge hin,
            rotateRight_eq _ _ _ _ _ _ _ _ _ _ _ hcll hclr (by simpa using hcr)]
          simp [setParent_setParent]
        refine ⟨_, hfin, ?_, ?_, ?_, ?_, ?_, ?_, ?_, ?_⟩
        · simp [keys_node, keys_setParent, List.append_assoc]
        · simp only [isBST_node_iff, keys_node, keys_setParent, isBST_setParent,
            List.mem_append, List.mem_cons]
          refine ⟨hbl1, ?_, hbll, ?_, hkr, hblr, hbr⟩
          · rintro x (hx | rfl | hx)
            · exact hbl2 x hx
            · exact hlk_k
            · exact lt_trans hlk_k (hkr x hx)
          · intro x hx
            exact hkl x (by simp only [keys_node, List.mem_append, List.mem_cons]; tauto)
        · simp only [isAvl_node_iff, realHeight_node, realHeight_setParent, isAvl_setParent,
            hall, halr, har, and_true, true_and]
          omega
        · simp only [cachesOk_node_iff, realHeight_node, realHeight_setParent,
            realCnt_node, realCnt_setParent, cachesOk_setParent, hcll, hclr, hcr,
            and_true, true_and]
        · simp only [parentsOk_node_iff]
          exact ⟨trivial, parentsOk_setParent _ (parentsBelow_of_parentsOk hpll),
            trivial, parentsOk_setParent _ (parentsBelow_of_parentsOk hplr),
            parentsOk_setParent _ hpr⟩
        · simp only [realHeight_node, realHeight_setParent]
          omega
        · simp only [realHeight_node, realHeight_setParent]
          omega
        · intro hx1 hx2
          simp only [realHeight_node, realHeight_setParent] at hx1 hx2 ⊢
          omega
    · -- balanced within one: no rotation
      have hb2 : toInt32 (usub64 (height (setParent (some k) r))
          (height (setParent (some k) l))) = (realHeight r : Int) - realHeight l := by
        rw [height_setParent, height_setParent, height_eq_realHeight hcr,
          height_eq_realHeight hcl]
        exact toInt32_usub64 _ _ (by push_cast; omega) (by push_cast; omega)
      have hfin : balance (node k h c p l r) =
          some (node k (max (realHeight l) (realHeight r) + 1) (realCnt l + 1 + realCnt r)
            none (setParent (some k) l) (setParent (some k) r)) := by
        rw [hb0, balanceAux_central _ _ _ _ _ _ (by rw [hb2]; omega) (by rw [hb2]; omega)]
      refine ⟨_, hfin, ?_, ?_, ?_, ?_, ?_, ?_, ?_, ?_⟩
      · simp [keys_setParent]
      · simp only [isBST_node_iff, keys_setParent, isBST_setParent]
        exact ⟨hkl, hkr, hbl, hbr⟩
      · simp only [isAvl_node_iff, realHeight_setParent, isAvl_setParent, hal, har,
          and_true, true_and]
        omega
      · simp only [cachesOk_node_iff, realHeight_setParent, realCnt_setParent,
          cachesOk_setParent, hcl, hcr, and_true, true_and]
      · simp only [parentsOk_node_iff]
        exact ⟨trivial, parentsOk_setParent _ hpl, parentsOk_setParent _ hpr⟩
      · simp only [realHeight_node, realHeight_setParent]
        omega
      · simp only [realHeight_node, realHeight_setParent]
        omega
      · intro hx1 hx2
        simp only [realHeight_node, realHeight_setParent]

theorem rootPar_of_parentsOk {t : Tree α} (h : parentsOk none t = true) :
    rootPar t = none := by
  cases t with
  | nil => rfl
  | node k hh c q l r =>
      rw [parentsOk_node_iff] at h
      rw [rootPar_node, h.1]

/-- On a node that already satisfies the invariants, `balance` only reruns
`update`, which rewrites every field with its current value except the root's
parent pointer, which it nulls. -/
theorem balance_id {t : Tree α} (ha : isAvl t = true) (hc : cachesOk t = true)
    (hp : parentsBelow t = true) : balance t = some (setParent none t) := by
  cases t with
  | nil => rfl
  | node k h c p l r =>
      rw [cachesOk_node_iff] at hc
      obtain ⟨hh, hcc, hcl, hcr⟩ := hc
      rw [isAvl_node_iff] at ha
      obtain ⟨ha1, ha2, hal, har⟩ := ha
      rw [parentsBelow_node_iff] at hp
      obtain ⟨hp1, hp2⟩ := hp
      have hb2 : toInt32 (usub64 (height (setParent (some k) r))
          (height (setParent (some k) l))) = (realHeight r : Int) - realHeight l := by
        rw [height_setParent, height_setParent, height_eq_realHeight hcr,
          height_eq_realHeight hcl]
        exact toInt32_usub64 _ _ (by push_cast; omega) (by push_cast; omega)
      rw [balance_node_def, update_eq k h c p l r hcl hcr,
        balanceAux_central _ _ _ _ _ _ (by rw [hb2]; omega) (by rw [hb2]; omega),
        setParent_eq_self hp1, setParent_eq_self hp2, setParent_node, ← hh, ← hcc]

theorem keys_sorted {t : Tree α} (hb : isBST t = true) :
    (keys t).Pairwise (fun a b => a < b) := by
  induction t with
  | nil => exact List.Pairwise.nil
  | node k h c p l r ihl ihr =>
      rw [isBST_node_iff] at hb
      obtain ⟨hkl, hkr, hbl, hbr⟩ := hb
      rw [keys_node, List.pairwise_append]
      refine ⟨ihl hbl, ?_, ?_⟩
      · rw [List.pairwise_cons]
        exact ⟨hkr, ihr hbr⟩
      · intro a ha b hbmem
        rcases List.mem_cons.mp hbmem with rfl | hbmem
        · exact hkl a ha
        · exact lt_trans (hkl a ha) (hkr b hbmem)

theorem keys_nodup {t : Tree α} (hb : isBST t = true) : (keys t).Nodup :=
  (keys_sorted hb).imp ne_of_lt

/-- A successful insertion of a fresh key: the key sequence gains exactly the
new key, the size grows by one, the invariants hold again, the root's parent
field is the one passed in (a fresh leaf) or null (after `balance`), and the
height grows by at most one. -/
theorem AVLInsert_notmem_spec (t : Tree α) : ∀ (key : α) (parent : Option α),
    isBST t = true → isAvl t = true → cachesOk t = true → parentsBelow t = true →
    key ∉ keys t →
    ∃ t2, AVLInsert t key parent = some t2 ∧
      (∀ x, x ∈ keys t2 ↔ x = key ∨ x ∈ keys t) ∧
      realCnt t2 = realCnt t + 1 ∧
      isBST t2 = true ∧ isAvl t2 = true ∧ cachesOk t2 = true ∧ parentsBelow t2 = true ∧
      (rootPar t2 = parent ∨ rootPar t2 = none) ∧
      realHeight t ≤ realHeight t2 ∧ realHeight t2 ≤ realHeight t + 1 := by
  induction t with
  | nil =>
      intro key parent _ _ _ _ _
      refine ⟨node key 1 1 parent nil nil, rfl, ?_, rfl, ?_, rfl, rfl, rfl,
        Or.inl rfl, ?_, ?_⟩
      · intro x; simp [keys]
      · simp [isBST_node_iff]
      · simp
      · simp
  | node k h c p l r ihl ihr =>
      intro key parent hb ha hc hp hmem
      rw [isBST_node_iff] at hb
      obtain ⟨hkl, hkr, hbl, hbr⟩ := hb
      rw [isAvl_node_iff] at ha
      obtain ⟨ha1, ha2, hal, har⟩ := ha
      rw [cachesOk_node_iff] at hc
      obtain ⟨hh, hcc, hcl, hcr⟩ := hc
      rw [parentsBelow_node_iff] at hp
      obtain ⟨hp1, hp2⟩ := hp
      simp only [keys_node, List.mem_append, List.mem_cons] at hmem
      push_neg at hmem
      obtain ⟨hml, hmk, hmr⟩ := hmem
      have hne : k ≠ key := fun hkk => hmk hkk.symm
      have hiseq : isKeyEqual k key = false := isKeyEqual_false hne
      by_cases hklt : k < key
      · obtain ⟨r2, hr2, hr2keys, hr2cnt, hr2b, hr2a, hr2c, hr2p, hr2root, hr2lo, hr2hi⟩ :=
          ihr key (some k) hbr har hcr (parentsBelow_of_parentsOk hp2) hmr
        have hkr2 : ∀ x ∈ keys r2, k < x := by
          intro x hx
          rcases (hr2keys x).mp hx with rfl | hx
          · exact hklt
          · exact hkr x hx
        obtain ⟨T, hT, hTkeys, hTb, hTa, hTc, hTpar, hTlo, hThi, hTex⟩ :=
          balance_spec k h c p l r2 hkl hkr2 hbl hr2b hal hr2a hcl hr2c (parentsBelow_of_parentsOk hp1) hr2p
            (by omega) (by omega)
        refine ⟨T, ?_, ?_, ?_, hTb, hTa, hTc, parentsBelow_of_parentsOk hTpar,
          Or.inr (rootPar_of_parentsOk hTpar), ?_, ?_⟩
        · simp only [AVLInsert, hiseq, Bool.false_eq_true, if_false, if_pos hklt, hr2,
            Option.some_bind]
          exact hT
        · intro x
          rw [hTkeys]
          simp only [keys_node, List.mem_append, List.mem_cons]
          constructor
          · rintro (hx | rfl | hx)
            · exact Or.inr (Or.inl hx)
            · exact Or.inr (Or.inr (Or.inl rfl))
            · rcases (hr2keys x).mp hx with rfl | hx
              · exact Or.inl rfl
              · exact Or.inr (Or.inr (Or.inr hx))
          · rintro (rfl | hx | rfl | hx)
            · exact Or.inr (Or.inr ((hr2keys x).mpr (Or.inl rfl)))
            · exact Or.inl hx
            · exact Or.inr (Or.inl rfl)
            · exact Or.inr (Or.inr ((hr2keys x).mpr (Or.inr hx)))
        · have := length_keys T
          rw [hTkeys] at this
          simp only [List.length_append, List.length_cons, length_keys] at this
          rw [realCnt_node]
          omega
        · rw [realHeight_node]
          by_cases hd : realHeight l ≤ realHeight r2 + 1 ∧ realHeight r2 ≤ realHeight l + 1
          · have := hTex hd.1 hd.2
            omega
          · push_neg at hd
            omega
        · rw [realHeight_node]
          by_cases hd : realHeight l ≤ realHeight r2 + 1 ∧ realHeight r2 ≤ realHeight l + 1
          · have := hTex hd.1 hd.2
            omega
          · push_neg at hd
            omega
      · have hkeylt : key < k := lt_of_le_of_ne (not_lt.mp hklt) (fun hkk => hne hkk.symm)
        obtain ⟨l2, hl2, hl2keys, hl2cnt, hl2b, hl2a, hl2c, hl2p, hl2root, hl2lo, hl2hi⟩ :=
          ihl key (some k) hbl hal hcl (parentsBelow_of_parentsOk hp1) hml
        have hkl2 : ∀ x ∈ keys l2, x < k := by
          intro x hx
          rcases (hl2keys x).mp hx with rfl | hx
          · exact hkeylt
          · exact hkl x hx
        obtain ⟨T, hT, hTkeys, hTb, hTa, hTc, hTpar, hTlo, hThi, hTex⟩ :=
          balance_spec k h c p l2 r hkl2 hkr hl2b hbr hl2a har hl2c hcr hl2p (parentsBelow_of_parentsOk hp2)
            (by omega) (by omega)
        refine ⟨T, ?_, ?_, ?_, hTb, hTa, hTc, parentsBelow_of_parentsOk hTpar,
          Or.inr (rootPar_of_parentsOk hTpar), ?_, ?_⟩
        · simp only [AVLInsert, hiseq, Bool.false_eq_true, if_false, if_neg hklt, hl2,
            Option.some_bind]
          exact hT
        · intro x
          rw [hTkeys]
          simp only [keys_node, List.mem_append, List.mem_cons]
          constructor
          · rintro (hx | rfl | hx)
            · rcases (hl2keys x).mp hx with rfl | hx
              · exact Or.inl rfl
              · exact Or.inr (Or.inl hx)
            · exact Or.inr (Or.inr (Or.inl rfl))
            · exact Or.inr (Or.inr (Or.inr hx))
          · rintro (rfl | hx | rfl | hx)
            · exact Or.inl ((hl2keys x).mpr (Or.inl rfl))
            · exact Or.inl ((hl2keys x).mpr (Or.inr hx))
            · exact Or.inr (Or.inl rfl)
            · exact Or.inr (Or.inr hx)
        · have := length_keys T
          rw [hTkeys] at this
          simp only [List.length_append, List.length_cons, length_keys] at this
          rw [realCnt_node]
          omega
        · rw [realHeight_node]
          by_cases hd : realHeight l2 ≤ realHeight r + 1 ∧ realHeight r ≤ realHeight l2 + 1
          · have := hTex hd.1 hd.2
            omega
          · push_neg at hd
            omega
        · rw [realHeight_node]
          by_cases hd : realHeight l2 ≤ realHeight r + 1 ∧ realHeight r ≤ realHeight l2 + 1
          · have := hTex hd.1 hd.2
            omega
          · push_neg at hd
            omega

/-- Inserting a key that is already present is a no-op: the tree is returned
unchanged except that, unless the hit was at the root itself, the final
`balance` nulls the root's parent field (the caller's `update` rewrites it). -/
theorem AVLInsert_mem_spec (t : Tree α) : ∀ (key : α) (parent : Option α),
    isBST t = true → isAvl t = true → cachesOk t = true → parentsBelow t = true →
    key ∈ keys t →
    AVLInsert t key parent = some t ∨
      AVLInsert t key parent = some (setParent none t) := by
  induction t with
  | nil => intro key parent _ _ _ _ hmem; simp at hmem
  | node k h c p l r ihl ihr =>
      intro key parent hb ha hc hp hmem
      rw [isBST_node_iff] at hb
      obtain ⟨hkl, hkr, hbl, hbr⟩ := hb
      rw [isAvl_node_iff] at ha
      obtain ⟨ha1, ha2, hal, har⟩ := ha
      rw [cachesOk_node_iff] at hc
      obtain ⟨hh, hcc, hcl, hcr⟩ := hc
      rw [parentsBelow_node_iff] at hp
      obtain ⟨hp1, hp2⟩ := hp
      by_cases hkk : k = key
      · left
        simp only [AVLInsert, (isKeyEqual_iff k key).mpr hkk, if_true]
      · have hiseq : isKeyEqual k key = false := isKeyEqual_false hkk
        simp only [keys_node, List.mem_append, List.mem_cons] at hmem
        by_cases hklt : k < key
        · have hmr : key ∈ keys r := by
            rcases hmem with hx | rfl | hx
            · exact absurd (hkl key hx) (not_lt.mpr hklt.le)
            · exact absurd rfl hkk
            · exact hx
          right
          have hcr2 : ∀ r2, r2 = r ∨ r2 = setParent none r →
              balance (node k h c p l r2) = some (setParent none (node k h c p l r)) := by
            intro r2 hr2
            have hcr2' : cachesOk r2 = true := by
              rcases hr2 with rfl | rfl <;> simp [hcr]
            have hb2 : toInt32 (usub64 (height (setParent (some k) r2))
                (height (setParent (some k) l))) =
                (realHeight r : Int) - realHeight l := by
              have hhr2 : realHeight r2 = realHeight r := by
                rcases hr2 with rfl | rfl <;> simp
              rw [height_setParent, height_setParent, height_eq_realHeight hcr2',
                height_eq_realHeight hcl, hhr2]
              exact toInt32_usub64 _ _ (by push_cast; omega) (by push_cast; omega)
            have hsp : setParent (some k) r2 = r := by
              rcases hr2 with rfl | rfl
              · exact setParent_eq_self hp2
              · rw [setParent_setParent]
                exact setParent_eq_self hp2
            have hrc2 : realCnt r2 = realCnt r := by
              rcases hr2 with rfl | rfl <;> simp
            have hrh2 : realHeight r2 = realHeight r := by
              rcases hr2 with rfl | rfl <;> simp
            rw [balance_node_def, update_eq k h c p l r2 hcl hcr2',
              balanceAux_central _ _ _ _ _ _ (by rw [hb2]; omega) (by rw [hb2]; omega),
              setParent_eq_self hp1, hsp, setParent_node, hrh2, hrc2, ← hh, ← hcc]
          have hstep := ihr key (some k) hbr har hcr (parentsBelow_of_parentsOk hp2) hmr
          simp only [AVLInsert, hiseq, Bool.false_eq_true, if_false, if_pos hklt]
          rcases hstep with hx | hx
          · rw [hx]
            exact hcr2 r (Or.inl rfl)
          · rw [hx]
            exact hcr2 (setParent none r) (Or.inr rfl)
        · have hkeylt : key < k := lt_of_le_of_ne (not_lt.mp hklt) (Ne.symm hkk)
          have hml : key ∈ keys l := by
            rcases hmem with hx | rfl | hx
            · exact hx
            · exact absurd rfl hkk
            · exact absurd (hkr key hx) (not_lt.mpr hkeylt.le)
          right
          have hcl2 : ∀ l2, l2 = l ∨ l2 = setParent none l →
              balance (node k h c p l2 r) = some (setParent none (node k h c p l r)) := by
            intro l2 hl2
            have hcl2' : cachesOk l2 = true := by
              rcases hl2 with rfl | rfl <;> simp [hcl]
            have hb2 : toInt32 (usub64 (height (setParent (some k) r))
                (height (setParent (some k) l2))) =
                (realHeight r : Int) - realHeight l := by
              have hhl2 : realHeight l2 = realHeight l := by
                rcases hl2 with rfl | rfl <;> simp
              rw [height_setParent, height_setParent, height_eq_realHeight hcl2',
                height_eq_realHeight hcr, hhl2]
              exact toInt32_usub64 _ _ (by push_cast; omega) (by push_cast; omega)
            have hsp : setParent (some k) l2 = l := by
              rcases hl2 with rfl | rfl
              · exact setParent_eq_self hp1
              · rw [setParent_setParent]
                exact setParent_eq_self hp1
            have hlc2 : realCnt l2 = realCnt l := by
              rcases hl2 with rfl | rfl <;> simp
            have hlh2 : realHeight l2 = realHeight l := by
              rcases hl2 with rfl | rfl <;> simp
            rw [balance_node_def, update_eq k h c p l2 r hcl2' hcr,
              balanceAux_central _ _ _ _ _ _ (by rw [hb2]; omega) (by rw [hb2]; omega),
              setParent_eq_self hp2, hsp, setParent_node, hlh2, hlc2, ← hh, ← hcc]
          have hstep := ihl key (some k) hbl hal hcl (parentsBelow_of_parentsOk hp1) hml
          simp only [AVLInsert, hiseq, Bool.false_eq_true, if_false, if_neg hklt]
          rcases hstep with hx | hx
          · rw [hx]
            exact hcl2 l (Or.inl rfl)
          · rw [hx]
            exact hcl2 (setParent none l) (Or.inr rfl)

theorem keys_node_ne_nil (k : α) (h c p l r) : keys (node k h c p l r) ≠ [] := by
  simp [keys]

/-- The loop of `findMin` lands on the node holding the least key: a node with
a null left child whose key heads the inorder sequence. -/
theorem findMin_spec (t : Tree α) : t ≠ nil →
    ∃ mk mh mc mp ms rest, findMin t = node mk mh mc mp nil ms ∧
      keys t = mk :: rest := by
  induction t with
  | nil => intro hne; exact absurd rfl hne
  | node k h c p l r ihl ihr =>
      intro _
      cases l with
      | nil => exact ⟨k, h, c, p, r, keys r, rfl, by simp⟩
      | node lk lh lc lp ll lr =>
          obtain ⟨mk, mh, mc, mp, ms, rest, hfm, hkeys⟩ := ihl (by simp)
          refine ⟨mk, mh, mc, mp, ms, rest ++ k :: keys r, ?_, ?_⟩
          · rw [show findMin (node k h c p (node lk lh lc lp ll lr) r) =
              findMin (node lk lh lc lp ll lr) from rfl, hfm]
          · rw [keys_node, hkeys]
            simp

/-- The loop of `findMax` lands on the node holding the greatest key: a node
with a null right child whose key ends the inorder sequence. -/
theorem findMax_spec (t : Tree α) : t ≠ nil →
    ∃ mk mh mc mp ms rest, findMax t = node mk mh mc mp ms nil ∧
      keys t = rest ++ [mk] := by
  induction t with
  | nil => intro hne; exact absurd rfl hne
  | node k h c p l r ihl ihr =>
      intro _
      cases r with
      | nil => exact ⟨k, h, c, p, l, keys l, rfl, by simp⟩
      | node rk rh rc rp rl rr =>
          obtain ⟨mk, mh, mc, mp, ms, rest, hfm, hkeys⟩ := ihr (by simp)
          refine ⟨mk, mh, mc, mp, ms, keys l ++ k :: rest, ?_, ?_⟩
          · rw [show findMax (node k h c p l (node rk rh rc rp rl rr)) =
              findMax (node rk rh rc rp rl rr) from rfl, hfm]
          · rw [keys_node, hkeys]
            simp

theorem tail_append_of_ne_nil (l1 l2 : List α) (h : l1 ≠ []) :
    (l1 ++ l2).tail = l1.tail ++ l2 := by
  cases l1 with
  | nil => exact absurd rfl h
  | cons a as => simp

/-- Correctness of `eraseMin` (src/set.h:185) on a non-null well-formed tree:
the minimum (the head of the inorder sequence) is removed, the invariants are
restored, and the height shrinks by at most one. -/
theorem eraseMin_spec (t : Tree α) : isBST t = true → isAvl t = true →
    cachesOk t = true → parentsBelow t = true → t ≠ nil →
    ∃ t2, eraseMin t = some t2 ∧ keys t2 = (keys t).tail ∧
      isBST t2 = true ∧ isAvl t2 = true ∧ cachesOk t2 = true ∧ parentsBelow t2 = true ∧
      realHeight t2 ≤ realHeight t ∧ realHeight t ≤ realHeight t2 + 1 := by
  induction t with
  | nil => intro _ _ _ _ hne; exact absurd rfl hne
  | node k h c p l r ihl ihr =>
      intro hb ha hc hp _
      rw [isBST_node_iff] at hb
      obtain ⟨hkl, hkr, hbl, hbr⟩ := hb
      rw [isAvl_node_iff] at ha
      obtain ⟨ha1, ha2, hal, har⟩ := ha
      rw [cachesOk_node_iff] at hc
      obtain ⟨hh, hcc, hcl, hcr⟩ := hc
      rw [parentsBelow_node_iff] at hp
      obtain ⟨hp1, hp2⟩ := hp
      cases l with
      | nil =>
          refine ⟨r, rfl, by simp, hbr, har, hcr, parentsBelow_of_parentsOk hp2, ?_, ?_⟩
          · simp only [realHeight_node, realHeight_nil]
            omega
          · simp only [realHeight_node, realHeight_nil]
            omega
      | node lk lh lc lp ll lr =>
          obtain ⟨l2, hl2, hl2keys, hl2b, hl2a, hl2c, hl2p, hl2hi, hl2lo⟩ :=
            ihl hbl hal hcl (parentsBelow_of_parentsOk hp1) (by simp)
          have hkl2 : ∀ x ∈ keys l2, x < k := by
            intro x hx
            rw [hl2keys] at hx
            exact hkl x (List.mem_of_mem_tail hx)
          obtain ⟨T, hT, hTkeys, hTb, hTa, hTc, hTpar, hTlo, hThi, hTex⟩ :=
            balance_spec k h c p l2 r hkl2 hkr hl2b hbr hl2a har hl2c hcr hl2p
              (parentsBelow_of_parentsOk hp2) (by omega) (by omega)
          refine ⟨T, ?_, ?_, hTb, hTa, hTc, parentsBelow_of_parentsOk hTpar, ?_, ?_⟩
          · simp only [eraseMin, hl2, Option.some_bind]
            exact hT
          · rw [hTkeys, hl2keys,
              show keys (node k h c p (node lk lh lc lp ll lr) r) =
                keys (node lk lh lc lp ll lr) ++ k :: keys r from rfl,
              tail_append_of_ne_nil _ _ (keys_node_ne_nil lk lh lc lp ll lr)]
          · by_cases hd : realHeight l2 ≤ realHeight r + 1 ∧ realHeight r ≤ realHeight l2 + 1
            · have := hTex hd.1 hd.2
              simp only [realHeight_node] at ha1 ha2 hl2hi hl2lo ⊢
              omega
            · push_neg at hd
              simp only [realHeight_node] at ha1 ha2 hl2hi hl2lo ⊢
              omega
          · by_cases hd : realHeight l2 ≤ realHeight r + 1 ∧ realHeight r ≤ realHeight l2 + 1
            · have := hTex hd.1 hd.2
              simp only [realHeight_node] at ha1 ha2 hl2hi hl2lo ⊢
              omega
            · push_neg at hd
              simp only [realHeight_node] at ha1 ha2 hl2hi hl2lo ⊢
              omega

@[simp] theorem rootPar_setParent_none (t : Tree α) :
    rootPar (setParent none t) = none := by cases t <;> rfl

theorem parentsOk_of_rootPar {t : Tree α} (h1 : rootPar t = none)
    (h2 : parentsBelow t = true) : parentsOk none t = true := by
  cases t with
  | nil => rfl
  | node k h c p l r =>
      rw [rootPar_node] at h1
      rw [parentsBelow_node_iff] at h2
      rw [parentsOk_node_iff]
      exact ⟨h1, h2.1, h2.2⟩

/-- Erasing an absent key is a no-op: the tree is returned unchanged except
that, unless the tree is empty, the final `balance` nulls the root's parent
field (rewritten by the caller's `update`). -/
theorem AVLErase_notmem_spec (t : Tree α) : ∀ (key : α),
    isBST t = true → isAvl t = true → cachesOk t = true → parentsBelow t = true →
    key ∉ keys t →
    AVLErase t key = some t ∨ AVLErase t key = some (setParent none t) := by
  induction t with
  | nil => intro key _ _ _ _ _; left; rfl
  | node k h c p l r ihl ihr =>
      intro key hb ha hc hp hmem
      rw [isBST_node_iff] at hb
      obtain ⟨hkl, hkr, hbl, hbr⟩ := hb
      rw [isAvl_node_iff] at ha
      obtain ⟨ha1, ha2, hal, har⟩ := ha
      rw [cachesOk_node_iff] at hc
      obtain ⟨hh, hcc, hcl, hcr⟩ := hc
      rw [parentsBelow_node_iff] at hp
      obtain ⟨hp1, hp2⟩ := hp
      simp only [keys_node, List.mem_append, List.mem_cons] at hmem
      push_neg at hmem
      obtain ⟨hml, hmk, hmr⟩ := hmem
      have hne : k ≠ key := fun hkk => hmk hkk.symm
      have hiseq : isKeyEqual k key = false := isKeyEqual_false hne
      right
      by_cases hklt : k < key
      · have hcr2 : ∀ r2, r2 = r ∨ r2 = setParent none r →
            balance (node k h c p l r2) = some (setParent none (node k h c p l r)) := by
          intro r2 hr2
          have hcr2x : cachesOk r2 = true := by
            rcases hr2 with rfl | rfl <;> simp [hcr]
          have hb2 : toInt32 (usub64 (height (setParent (some k) r2))
              (height (setParent (some k) l))) =
              (realHeight r : Int) - realHeight l := by
            have hhr2 : realHeight r2 = realHeight r := by
              rcases hr2 with rfl | rfl <;> simp
            rw [height_setParent, height_setParent, height_eq_realHeight hcr2x,
              height_eq_realHeight hcl, hhr2]
            exact toInt32_usub64 _ _ (by push_cast; omega) (by push_cast; omega)
          have hsp : setParent (some k) r2 = r := by
            rcases hr2 with rfl | rfl
            · exact setParent_eq_self hp2
            · rw [setParent_setParent]
              exact setParent_eq_self hp2
          have hrc2 : realCnt r2 = realCnt r := by
            rcases hr2 with rfl | rfl <;> simp
          have hrh2 : realHeight r2 = realHeight r := by
            rcases hr2 with rfl | rfl <;> simp
          rw [balance_node_def, update_eq k h c p l r2 hcl hcr2x,
            balanceAux_central _ _ _ _ _ _ (by rw [hb2]; omega) (by rw [hb2]; omega),
            setParent_eq_self hp1, hsp, setParent_node, hrh2, hrc2, ← hh, ← hcc]
        have hstep := ihr key hbr har hcr (parentsBelow_of_parentsOk hp2) hmr
        simp only [AVLErase, hiseq, Bool.false_eq_true, if_false, if_pos hklt]
        rcases hstep with hx | hx
        · rw [hx]
          exact hcr2 r (Or.inl rfl)
        · rw [hx]
          exact hcr2 (setParent none r) (Or.inr rfl)
      · have hcl2 : ∀ l2, l2 = l ∨ l2 = setParent none l →
            balance (node k h c p l2 r) = some (setParent none (node k h c p l r)) := by
          intro l2 hl2
          have hcl2x : cachesOk l2 = true := by
            rcases hl2 with rfl | rfl <;> simp [hcl]
          have hb2 : toInt32 (usub64 (height (setParent (some k) r))
              (height (setParent (some k) l2))) =
              (realHeight r : Int) - realHeight l := by
            have hhl2 : realHeight l2 = realHeight l := by
              rcases hl2 with rfl | rfl <;> simp
            rw [height_setParent, height_setParent, height_eq_realHeight hcl2x,
              height_eq_realHeight hcr, hhl2]
            exact toInt32_usub64 _ _ (by push_cast; omega) (by push_cast; omega)
          have hsp : setParent (some k) l2 = l := by
            rcases hl2 with rfl | rfl
            · exact setParent_eq_self hp1
            · rw [setParent_setParent]
              exact setParent_eq_self hp1
          have hlc2 : realCnt l2 = realCnt l := by
            rcases hl2 with rfl | rfl <;> simp
          have hlh2 : realHeight l2 = realHeight l := by
            rcases hl2 with rfl | rfl <;> simp
          rw [balance_node_def, update_eq k h c p l2 r hcl2x hcr,
            balanceAux_central _ _ _ _ _ _ (by rw [hb2]; omega) (by rw [hb2]; omega),
            setParent_eq_self hp2, hsp, setParent_node, hlh2, hlc2, ← hh, ← hcc]
        have hml2 : key ∉ keys l := hml
        have hstep := ihl key hbl hal hcl (parentsBelow_of_parentsOk hp1) hml2
        simp only [AVLErase, hiseq, Bool.false_eq_true, if_false, if_neg hklt]
        rcases hstep with hx | hx
        · rw [hx]
          exact hcl2 l (Or.inl rfl)
        · rw [hx]
          exact hcl2 (setParent none l) (Or.inr rfl)

/-- Erasing a present key removes exactly that key, decrements the size by
one, restores the invariants with a null root parent, and shrinks the height
by at most one. -/
theorem AVLErase_mem_spec (t : Tree α) : ∀ (key : α),
    isBST t = true → isAvl t = true → cachesOk t = true → parentsBelow t = true →
    key ∈ keys t →
    ∃ t2, AVLErase t key = some t2 ∧
      (∀ x, x ∈ keys t2 ↔ x ∈ keys t ∧ x ≠ key) ∧
      realCnt t = realCnt t2 + 1 ∧
      isBST t2 = true ∧ isAvl t2 = true ∧ cachesOk t2 = true ∧ parentsBelow t2 = true ∧
      rootPar t2 = none ∧
      realHeight t2 ≤ realHeight t ∧ realHeight t ≤ realHeight t2 + 1 := by
  induction t with
  | nil => intro key _ _ _ _ hmem; simp at hmem
  | node k h c p l r ihl ihr =>
      intro key hb ha hc hp hmem
      rw [isBST_node_iff] at hb
      obtain ⟨hkl, hkr, hbl, hbr⟩ := hb
      rw [isAvl_node_iff] at ha
      obtain ⟨ha1, ha2, hal, har⟩ := ha
      rw [cachesOk_node_iff] at hc
      obtain ⟨hh, hcc, hcl, hcr⟩ := hc
      rw [parentsBelow_node_iff] at hp
      obtain ⟨hp1, hp2⟩ := hp
      by_cases hkk : k = key
      · subst hkk
        cases r with
        | nil =>
            refine ⟨setParent none l, ?_, ?_, ?_, by simp [hbl], by simp [hal],
              by simp [hcl], by simp [parentsBelow_of_parentsOk hp1], by simp, ?_, ?_⟩
            · simp only [AVLErase, (isKeyEqual_iff k k).mpr rfl, if_true]
              exact balance_id hal hcl (parentsBelow_of_parentsOk hp1)
            · intro x
              simp only [keys_setParent, keys_node, keys_nil, List.nil_append,
                List.mem_append, List.mem_cons, List.not_mem_nil, or_false]
              constructor
              · intro hx
                exact ⟨Or.inl hx, ne_of_lt (hkl x hx)⟩
              · rintro ⟨hx | rfl, hne⟩
                · exact hx
                · exact absurd rfl hne
            · simp only [realCnt_setParent, realCnt_node, realCnt_nil]
            · simp only [realHeight_setParent, realHeight_node, realHeight_nil]
              omega
            · simp only [realHeight_setParent, realHeight_node, realHeight_nil]
              omega
        | node rk rh2 rc2 rp2 rl rr =>
            obtain ⟨mk, mh2, mc2, mp2, ms, rest, hfm, hrest⟩ :=
              findMin_spec (node rk rh2 rc2 rp2 rl rr) (by simp)
            obtain ⟨r2, her, hr2keys, hr2b, hr2a, hr2c, hr2p, hr2hi, hr2lo⟩ :=
              eraseMin_spec (node rk rh2 rc2 rp2 rl rr) hbr har hcr
                (parentsBelow_of_parentsOk hp2) (by simp)
            have hr2keysr : keys r2 = rest := by
              rw [hr2keys, hrest]
              rfl
            have hsort := keys_sorted hbr
            rw [hrest, List.pairwise_cons] at hsort
            obtain ⟨hmkrest, -⟩ := hsort
            have hkmk : k < mk := hkr mk (by rw [hrest]; simp)
            have hkl2 : ∀ x ∈ keys l, x < mk := fun x hx => lt_trans (hkl x hx) hkmk
            have hkr2 : ∀ x ∈ keys r2, mk < x := by
              rw [hr2keysr]
              exact hmkrest
            obtain ⟨T, hT, hTkeys, hTb, hTa, hTc, hTpar, hTlo, hThi, hTex⟩ :=
              balance_spec mk mh2 mc2 mp2 l r2 hkl2 hkr2 hbl hr2b hal hr2a hcl hr2c
                (parentsBelow_of_parentsOk hp1) hr2p (by omega) (by omega)
            refine ⟨T, ?_, ?_, ?_, hTb, hTa, hTc, parentsBelow_of_parentsOk hTpar,
              rootPar_of_parentsOk hTpar, ?_, ?_⟩
            · simp only [AVLErase, (isKeyEqual_iff k k).mpr rfl, if_true, hfm, her,
                Option.some_bind]
              exact hT
            · intro x
              rw [hTkeys, hr2keysr,
                show keys (node k h c p l (node rk rh2 rc2 rp2 rl rr)) =
                  keys l ++ k :: mk :: rest from by rw [keys_node, hrest]]
              simp only [List.mem_append, List.mem_cons]
              constructor
              · rintro (hx | rfl | hx)
                · exact ⟨Or.inl hx, ne_of_lt (hkl x hx)⟩
                · exact ⟨Or.inr (Or.inr (Or.inl rfl)), (ne_of_lt hkmk).symm⟩
                · exact ⟨Or.inr (Or.inr (Or.inr hx)),
                    (ne_of_lt (lt_trans hkmk (hmkrest x hx))).symm⟩
              · rintro ⟨hx | rfl | rfl | hx, hne⟩
                · exact Or.inl hx
                · exact absurd rfl hne
                · exact Or.inr (Or.inl rfl)
                · exact Or.inr (Or.inr hx)
            · have h1 := length_keys T
              rw [hTkeys] at h1
              simp only [List.length_append, List.length_cons, length_keys] at h1
              have h2 := length_keys (node rk rh2 rc2 rp2 rl rr)
              rw [hrest] at h2
              simp only [List.length_cons] at h2
              have h3 := length_keys r2
              rw [hr2keysr] at h3
              rw [realCnt_node]
              omega
            · by_cases hd : realHeight l ≤ realHeight r2 + 1 ∧
                  realHeight r2 ≤ realHeight l + 1
              · have := hTex hd.1 hd.2
                simp only [realHeight_node] at *
                omega
              · push_neg at hd
                simp only [realHeight_node] at *
                omega
            · by_cases hd : realHeight l ≤ realHeight r2 + 1 ∧
                  realHeight r2 ≤ realHeight l + 1
              · have := hTex hd.1 hd.2
                simp only [realHeight_node] at *
                omega
              · push_neg at hd
                simp only [realHeight_node] at *
                omega
      · have hiseq : isKeyEqual k key = false := isKeyEqual_false hkk
        simp only [keys_node, List.mem_append, List.mem_cons] at hmem
        by_cases hklt : k < key
        · have hmr : key ∈ keys r := by
            rcases hmem with hx | rfl | hx
            · exact absurd (hkl key hx) (not_lt.mpr hklt.le)
            · exact absurd rfl hkk
            · exact hx
          obtain ⟨r2, hr2, hr2keys, hr2cnt, hr2b, hr2a, hr2c, hr2p, hr2root, hr2hi, hr2lo⟩ :=
            ihr key hbr har hcr (parentsBelow_of_parentsOk hp2) hmr
          have hkr2 : ∀ x ∈ keys r2, k < x := by
            intro x hx
            exact hkr x ((hr2keys x).mp hx).1
          obtain ⟨T, hT, hTkeys, hTb, hTa, hTc, hTpar, hTlo, hThi, hTex⟩ :=
            balance_spec k h c p l r2 hkl hkr2 hbl hr2b hal hr2a hcl hr2c
              (parentsBelow_of_parentsOk hp1) hr2p (by omega) (by omega)
          refine ⟨T, ?_, ?_, ?_, hTb, hTa, hTc, parentsBelow_of_parentsOk hTpar,
            rootPar_of_parentsOk hTpar, ?_, ?_⟩
          · simp only [AVLErase, hiseq, Bool.false_eq_true, if_false, if_pos hklt, hr2,
              Option.some_bind]
            exact hT
          · intro x
            rw [hTkeys]
            simp only [keys_node, List.mem_append, List.mem_cons]
            constructor
            · rintro (hx | rfl | hx)
              · refine ⟨Or.inl hx, ?_⟩
                intro hxx
                subst hxx
                exact absurd (hkl x hx) (not_lt.mpr hklt.le)
              · exact ⟨Or.inr (Or.inl rfl), hkk⟩
              · obtain ⟨hx2, hne⟩ := (hr2keys x).mp hx
                exact ⟨Or.inr (Or.inr hx2), hne⟩
            · rintro ⟨hx | rfl | hx, hne⟩
              · exact Or.inl hx
              · exact Or.inr (Or.inl rfl)
              · exact Or.inr (Or.inr ((hr2keys x).mpr ⟨hx, hne⟩))
          · have h1 := length_keys T
            rw [hTkeys] at h1
            simp only [List.length_append, List.length_cons, length_keys] at h1
            simp only [realCnt_node]
            omega
          · by_cases hd : realHeight l ≤ realHeight r2 + 1 ∧
                realHeight r2 ≤ realHeight l + 1
            · have := hTex hd.1 hd.2
              simp only [realHeight_node] at *
              omega
            · push_neg at hd
              simp only [realHeight_node] at *
              omega
          · by_cases hd : realHeight l ≤ realHeight r2 + 1 ∧
                realHeight r2 ≤ realHeight l + 1
            · have := hTex hd.1 hd.2
              simp only [realHeight_node] at *
              omega
            · push_neg at hd
              simp only [realHeight_node] at *
              omega
        · have hkeylt : key < k := lt_of_le_of_ne (not_lt.mp hklt) (Ne.symm hkk)
          have hml : key ∈ keys l := by
            rcases hmem with hx | rfl | hx
            · exact hx
            · exact absurd rfl hkk
            · exact absurd (hkr key hx) (not_lt.mpr hkeylt.le)
          obtain ⟨l2, hl2, hl2keys, hl2cnt, hl2b, hl2a, hl2c, hl2p, hl2root, hl2hi, hl2lo⟩ :=
            ihl key hbl hal hcl (parentsBelow_of_parentsOk hp1) hml
          have hkl2 : ∀ x ∈ keys l2, x < k := by
            intro x hx
            exact hkl x ((hl2keys x).mp hx).1
          obtain ⟨T, hT, hTkeys, hTb, hTa, hTc, hTpar, hTlo, hThi, hTex⟩ :=
            balance_spec k h c p l2 r hkl2 hkr hl2b hbr hl2a har hl2c hcr hl2p
              (parentsBelow_of_parentsOk hp2) (by omega) (by omega)
          refine ⟨T, ?_, ?_, ?_, hTb, hTa, hTc, parentsBelow_of_parentsOk hTpar,
            rootPar_of_parentsOk hTpar, ?_, ?_⟩
          · simp only [AVLErase, hiseq, Bool.false_eq_true, if_false, if_neg hklt, hl2,
              Option.some_bind]
            exact hT
          · intro x
            rw [hTkeys]
            simp only [keys_node, List.mem_append, List.mem_cons]
            constructor
            · rintro (hx | rfl | hx)
              · obtain ⟨hx2, hne⟩ := (hl2keys x).mp hx
                exact ⟨Or.inl hx2, hne⟩
              · exact ⟨Or.inr (Or.inl rfl), hkk⟩
              · refine ⟨Or.inr (Or.inr hx), ?_⟩
                intro hxx
                subst hxx
                exact absurd (hkr x hx) (not_lt.mpr hkeylt.le)
            · rintro ⟨hx | rfl | hx, hne⟩
              · exact Or.inl ((hl2keys x).mpr ⟨hx, hne⟩)
              · exact Or.inr (Or.inl rfl)
              · exact Or.inr (Or.inr hx)
          · have h1 := length_keys T
            rw [hTkeys] at h1
            simp only [List.length_append, List.length_cons, length_keys] at h1
            simp only [realCnt_node]
            omega
          · by_cases hd : realHeight l2 ≤ realHeight r + 1 ∧
                realHeight r ≤ realHeight l2 + 1
            · have := hTex hd.1 hd.2
              simp only [realHeight_node] at *
              omega
            · push_neg at hd
              simp only [realHeight_node] at *
              omega
          · by_cases hd : realHeight l2 ≤ realHeight r + 1 ∧
                realHeight r ≤ realHeight l2 + 1
            · have := hTex hd.1 hd.2
              simp only [realHeight_node] at *
              omega
            · push_neg at hd
              simp only [realHeight_node] at *
              omega

/-- One public mutating call on a well-formed set succeeds (no null pointer is
ever dereferenced) and preserves well-formedness. -/
theorem applyOp_WF {t : Tree α} (hwf : WF t = true) (op : Op α) :
    ∃ t2, applyOp t op = some t2 ∧ WF t2 = true := by
  rw [WF_iff] at hwf
  obtain ⟨hb, ha, hc, hp⟩ := hwf
  have hpb := parentsBelow_of_parentsOk hp
  cases op with
  | ins k =>
      by_cases hmem : k ∈ keys t
      · rcases AVLInsert_mem_spec t k none hb ha hc hpb hmem with hx | hx
        · exact ⟨t, hx, by rw [WF_iff]; exact ⟨hb, ha, hc, hp⟩⟩
        · rw [setParent_eq_self hp] at hx
          exact ⟨t, hx, by rw [WF_iff]; exact ⟨hb, ha, hc, hp⟩⟩
      · obtain ⟨t2, heq, _, _, hb2, ha2, hc2, hp2, hroot2, _, _⟩ :=
          AVLInsert_notmem_spec t k none hb ha hc hpb hmem
        have hroot : rootPar t2 = none := by
          rcases hroot2 with hx | hx <;> exact hx
        exact ⟨t2, heq, by
          rw [WF_iff]
          exact ⟨hb2, ha2, hc2, parentsOk_of_rootPar hroot hp2⟩⟩
  | del k =>
      by_cases hmem : k ∈ keys t
      · obtain ⟨t2, heq, _, _, hb2, ha2, hc2, hp2, hroot2, _, _⟩ :=
          AVLErase_mem_spec t k hb ha hc hpb hmem
        exact ⟨t2, heq, by
          rw [WF_iff]
          exact ⟨hb2, ha2, hc2, parentsOk_of_rootPar hroot2 hp2⟩⟩
      · rcases AVLErase_notmem_spec t k hb ha hc hpb hmem with hx | hx
        · exact ⟨t, hx, by rw [WF_iff]; exact ⟨hb, ha, hc, hp⟩⟩
        · rw [setParent_eq_self hp] at hx
          exact ⟨t, hx, by rw [WF_iff]; exact ⟨hb, ha, hc, hp⟩⟩

theorem runFrom_WF : ∀ (ops : List (Op α)) (t : Tree α), WF t = true →
    ∃ t2, runFrom t ops = some t2 ∧ WF t2 = true := by
  intro ops
  induction ops with
  | nil => intro t hwf; exact ⟨t, rfl, hwf⟩
  | cons op ops ih =>
      intro t hwf
      obtain ⟨t1, h1, hwf1⟩ := applyOp_WF hwf op
      obtain ⟨t2, h2, hwf2⟩ := ih t1 hwf1
      refine ⟨t2, ?_, hwf2⟩
      simp only [runFrom, h1, Option.some_bind]
      exact h2

/-- Every sequence of public `insert`/`erase` calls starting from the empty
set succeeds and yields a well-formed tree. -/
theorem runOps_WF (ops : List (Op α)) :
    ∃ t, runOps ops = some t ∧ WF t = true :=
  runFrom_WF ops nil rfl

/-- On a BST, `AVLFind` locates the node holding a present key. -/
theorem AVLFind_mem_keyOf (t : Tree α) : ∀ (key : α), isBST t = true →
    key ∈ keys t → keyOf (AVLFind t key) = some key := by
  induction t with
  | nil => intro key _ hmem; simp at hmem
  | node k h c p l r ihl ihr =>
      intro key hb hmem
      rw [isBST_node_iff] at hb
      obtain ⟨hkl, hkr, hbl, hbr⟩ := hb
      by_cases hkk : k = key
      · subst hkk
        simp only [AVLFind, (isKeyEqual_iff k k).mpr rfl, if_true, keyOf_node]
      · have hiseq : isKeyEqual k key = false := isKeyEqual_false hkk
        simp only [keys_node, List.mem_append, List.mem_cons] at hmem
        by_cases hklt : k < key
        · have hmr : key ∈ keys r := by
            rcases hmem with hx | rfl | hx
            · exact absurd (hkl key hx) (not_lt.mpr hklt.le)
            · exact absurd rfl hkk
            · exact hx
          simp only [AVLFind, hiseq, Bool.false_eq_true, if_false, if_pos hklt]
          exact ihr key hbr hmr
        · have hkeylt : key < k := lt_of_le_of_ne (not_lt.mp hklt) (Ne.symm hkk)
          have hml : key ∈ keys l := by
            rcases hmem with hx | rfl | hx
            · exact hx
            · exact absurd rfl hkk
            · exact absurd (hkr key hx) (not_lt.mpr hkeylt.le)
          simp only [AVLFind, hiseq, Bool.false_eq_true, if_false, if_neg hklt]
          exact ihl key hbl hml

/-- On a BST, `AVLFind` returns null exactly for absent keys. -/
theorem AVLFind_notmem (t : Tree α) : ∀ (key : α), isBST t = true →
    key ∉ keys t → AVLFind t key = nil := by
  induction t with
  | nil => intro key _ _; rfl
  | node k h c p l r ihl ihr =>
      intro key hb hmem
      rw [isBST_node_iff] at hb
      obtain ⟨hkl, hkr, hbl, hbr⟩ := hb
      simp only [keys_node, List.mem_append, List.mem_cons] at hmem
      push_neg at hmem
      obtain ⟨hml, hmk, hmr⟩ := hmem
      have hiseq : isKeyEqual k key = false := isKeyEqual_false (fun hkk => hmk hkk.symm)
      by_cases hklt : k < key
      · simp only [AVLFind, hiseq, Bool.false_eq_true, if_false, if_pos hklt]
        exact ihr key hbr hmr
      · simp only [AVLFind, hiseq, Bool.false_eq_true, if_false, if_neg hklt]
        exact ihl key hbl hml

/-- On a BST, `AVLLowerBound` returns null exactly when no stored key is
`≥ key`, and otherwise the least stored key that is `≥ key`. -/
theorem AVLLowerBound_spec (t : Tree α) : ∀ (key : α), isBST t = true →
    (AVLLowerBound t key = nil ↔ ∀ x ∈ keys t, x < key) ∧
    (∀ m, keyOf (AVLLowerBound t key) = some m →
      m ∈ keys t ∧ key ≤ m ∧ ∀ x ∈ keys t, key ≤ x → m ≤ x) := by
  induction t with
  | nil =>
      intro key _
      constructor
      · simp [AVLLowerBound]
      · intro m hm
        simp [AVLLowerBound, keyOf] at hm
  | node k h c p l r ihl ihr =>
      intro key hb
      rw [isBST_node_iff] at hb
      obtain ⟨hkl, hkr, hbl, hbr⟩ := hb
      by_cases hkk : k = key
      · subst hkk
        constructor
        · simp only [AVLLowerBound, (isKeyEqual_iff k k).mpr rfl, if_true]
          constructor
          · intro hx
            exact absurd hx (by simp)
          · intro hx
            exact absurd (hx k (by simp)) (lt_irrefl k)
        · intro m hm
          simp only [AVLLowerBound, (isKeyEqual_iff k k).mpr rfl, if_true,
            keyOf_node, Option.some.injEq] at hm
          subst hm
          refine ⟨by simp, le_refl _, ?_⟩
          intro x _ hx
          exact hx
      · have hiseq : isKeyEqual k key = false := isKeyEqual_false hkk
        by_cases hklt : key < k
        · obtain ⟨ihl1, ihl2⟩ := ihl key hbl
          cases hLB : AVLLowerBound l key with
          | nil =>
              have hall : ∀ x ∈ keys l, x < key := ihl1.mp hLB
              constructor
              · simp only [AVLLowerBound, hiseq, Bool.false_eq_true, if_false,
                  if_pos hklt, hLB]
                constructor
                · intro hx
                  exact absurd hx (by simp)
                · intro hx
                  exact absurd (hx k (by simp)) (not_lt.mpr hklt.le)
              · intro m hm
                simp only [AVLLowerBound, hiseq, Bool.false_eq_true, if_false,
                  if_pos hklt, hLB, keyOf_node, Option.some.injEq] at hm
                subst hm
                refine ⟨by simp, hklt.le, ?_⟩
                intro x hx hkey
                simp only [keys_node, List.mem_append, List.mem_cons] at hx
                rcases hx with hx | rfl | hx
                · exact absurd (hall x hx) (not_lt.mpr hkey)
                · exact le_refl _
                · exact (hkr x hx).le
          | node tk th tc tp tl tr =>
              have hm0 : keyOf (AVLLowerBound l key) = some tk := by
                rw [hLB]; rfl
              obtain ⟨htk_mem, htk_ge, htk_min⟩ := ihl2 tk hm0
              constructor
              · simp only [AVLLowerBound, hiseq, Bool.false_eq_true, if_false,
                  if_pos hklt, hLB]
                constructor
                · intro hx
                  exact absurd hx (by simp)
                · intro hx
                  exact absurd (hx tk (by simp [keys_node]; exact Or.inl htk_mem))
                    (not_lt.mpr htk_ge)
              · intro m hm
                simp only [AVLLowerBound, hiseq, Bool.false_eq_true, if_false,
                  if_pos hklt, hLB, keyOf_node, Option.some.injEq] at hm
                subst hm
                refine ⟨by simp [keys_node]; exact Or.inl htk_mem, htk_ge, ?_⟩
                intro x hx hkey
                simp only [keys_node, List.mem_append, List.mem_cons] at hx
                rcases hx with hx | rfl | hx
                · exact htk_min x hx hkey
                · exact (hkl _ htk_mem).le
                · exact le_trans (hkl _ htk_mem).le (hkr x hx).le
        · have hkgt : k < key :=
            lt_of_le_of_ne (not_lt.mp hklt) hkk
          obtain ⟨ihr1, ihr2⟩ := ihr key hbr
          have heq : AVLLowerBound (node k h c p l r) key = AVLLowerBound r key := by
            simp only [AVLLowerBound, hiseq, Bool.false_eq_true, if_false, if_neg hklt]
          rw [heq]
          constructor
          · rw [ihr1]
            constructor
            · intro hall x hx
              simp only [keys_node, List.mem_append, List.mem_cons] at hx
              rcases hx with hx | rfl | hx
              · exact lt_trans (hkl x hx) hkgt
              · exact hkgt
              · exact hall x hx
            · intro hall x hx
              exact hall x (by simp [keys_node, hx])
          · intro m hm
            obtain ⟨hmem, hge, hmin⟩ := ihr2 m hm
            refine ⟨by simp [keys_node, hmem], hge, ?_⟩
            intro x hx hkey
            simp only [keys_node, List.mem_append, List.mem_cons] at hx
            rcases hx with hx | rfl | hx
            · exact absurd hkey (not_le.mpr (lt_trans (hkl x hx) hkgt))
            · exact absurd hkey (not_le.mpr hkgt)
            · exact hmin x hx hkey

/-! ### Successor and predecessor stepping. -/

@[simp] theorem leftOf_nil : leftOf (nil : Tree α) = nil := rfl

@[simp] theorem leftOf_node (k : α) (h c p l r) : leftOf (node k h c p l r) = l := rfl

@[simp] theorem rightOf_nil : rightOf (nil : Tree α) = nil := rfl

@[simp] theorem rightOf_node (k : α) (h c p l r) : rightOf (node k h c p l r) = r := rfl

theorem keyOf_isSome {t : Tree α} (h : t ≠ nil) : ∃ x, keyOf t = some x := by
  cases t with
  | nil => exact absurd rfl h
  | node k hh c p l r => exact ⟨k, rfl⟩

theorem lastKeyD_nil (c : Option α) : lastKeyD c ([] : List (Tree α)) = c := rfl

theorem lastKeyD_cons (c : Option α) (P : Tree α) (A : List (Tree α)) :
    lastKeyD c (P :: A) = lastKeyD (keyOf P) A := by
  cases A with
  | nil => rfl
  | cons Q A2 =>
      simp only [lastKeyD, List.getLast?_cons_cons]
      cases hq : (Q :: A2).getLast? with
      | none => simp at hq
      | some P2 => rfl

theorem lastKeyD_concat (c : Option α) (A : List (Tree α)) (t : Tree α) :
    lastKeyD c (A ++ [t]) = keyOf t := by
  simp only [lastKeyD, List.getLast?_concat]

theorem climbRight_cons_pos (c : Option α) (P : Tree α) (A : List (Tree α))
    (h : keyOf (rightOf P) = c) : climbRight c (P :: A) = climbRight (keyOf P) A := by
  simp only [climbRight]
  rw [if_pos h]

theorem climbRight_cons_neg (c : Option α) (P : Tree α) (A : List (Tree α))
    (h : ¬ keyOf (rightOf P) = c) : climbRight c (P :: A) = keyOf P := by
  simp only [climbRight]
  rw [if_neg h]

theorem climbRight_append (A : List (Tree α)) : ∀ (c : Option α) (B : List (Tree α)),
    (∀ P ∈ A, P ≠ nil) →
    climbRight c (A ++ B) =
      match climbRight c A with
      | some x => some x
      | none => climbRight (lastKeyD c A) B := by
  induction A with
  | nil => intro c B _; rfl
  | cons P A2 ih =>
      intro c B hA
      by_cases hcond : keyOf (rightOf P) = c
      · rw [List.cons_append, climbRight_cons_pos _ _ _ hcond,
          ih (keyOf P) B (fun Q hQ => hA Q (List.mem_cons_of_mem P hQ)),
          climbRight_cons_pos _ _ _ hcond, lastKeyD_cons]
      · rw [List.cons_append, climbRight_cons_neg _ _ _ hcond,
          climbRight_cons_neg _ _ _ hcond]
        obtain ⟨x, hx⟩ := keyOf_isSome (hA P (List.mem_cons_self P A2))
        rw [hx]

theorem climbLeft_cons_pos (c : Option α) (P : Tree α) (A : List (Tree α))
    (h : keyOf (leftOf P) = c) : climbLeft c (P :: A) = climbLeft (keyOf P) A := by
  simp only [climbLeft]
  rw [if_pos h]

theorem climbLeft_cons_neg (c : Option α) (P : Tree α) (A : List (Tree α))
    (h : ¬ keyOf (leftOf P) = c) : climbLeft c (P :: A) = keyOf P := by
  simp only [climbLeft]
  rw [if_neg h]

theorem climbLeft_append (A : List (Tree α)) : ∀ (c : Option α) (B : List (Tree α)),
    (∀ P ∈ A, P ≠ nil) →
    climbLeft c (A ++ B) =
      match climbLeft c A with
      | some x => some x
      | none => climbLeft (lastKeyD c A) B := by
  induction A with
  | nil => intro c B _; rfl
  | cons P A2 ih =>
      intro c B hA
      by_cases hcond : keyOf (leftOf P) = c
      · rw [List.cons_append, climbLeft_cons_pos _ _ _ hcond,
          ih (keyOf P) B (fun Q hQ => hA Q (List.mem_cons_of_mem P hQ)),
          climbLeft_cons_pos _ _ _ hcond, lastKeyD_cons]
      · rw [List.cons_append, climbLeft_cons_neg _ _ _ hcond,
          climbLeft_cons_neg _ _ _ hcond]
        obtain ⟨x, hx⟩ := keyOf_isSome (hA P (List.mem_cons_self P A2))
        rw [hx]

theorem ancestors_nonnil (t : Tree α) : ∀ (key : α), ∀ P ∈ ancestors t key, P ≠ nil := by
  induction t with
  | nil => intro key P hP; simp [ancestors] at hP
  | node k h c p l r ihl ihr =>
      intro key P hP
      simp only [ancestors] at hP
      split at hP
      · simp at hP
      · split at hP
        · rcases List.mem_append.mp hP with hx | hx
          · exact ihr key P hx
          · simp only [List.mem_singleton] at hx
            subst hx
            simp
        · rcases List.mem_append.mp hP with hx | hx
          · exact ihl key P hx
          · simp only [List.mem_singleton] at hx
            subst hx
            simp

theorem find?_append_false {p : α → Bool} (l1 l2 : List α)
    (h : ∀ x ∈ l1, p x = false) : (l1 ++ l2).find? p = l2.find? p := by
  induction l1 with
  | nil => simp
  | cons a as ih =>
      rw [List.cons_append,
        List.find?_cons_of_neg _ (by simp [h a (List.mem_cons_self a as)]),
        ih (fun x hx => h x (List.mem_cons_of_mem a hx))]

theorem find?_append_some {p : α → Bool} (l1 l2 : List α) (x : α)
    (h : l1.find? p = some x) : (l1 ++ l2).find? p = some x := by
  induction l1 with
  | nil => simp at h
  | cons a as ih =>
      by_cases hpa : p a = true
      · rw [List.find?_cons_of_pos _ hpa] at h
        rw [List.cons_append, List.find?_cons_of_pos _ hpa]
        exact h
      · rw [List.find?_cons_of_neg _ hpa] at h
        rw [List.cons_append, List.find?_cons_of_neg _ hpa]
        exact ih h

/-- Where `nextNode` (src/set.h:201) actually steps to on a BST: the first
stored key strictly greater than the current one. -/
theorem nextNode_succ (t : Tree α) : ∀ (k : α), isBST t = true → k ∈ keys t →
    nextNode t k = (keys t).find? (fun x => decide (k < x)) := by
  induction t with
  | nil => intro k _ hmem; simp at hmem
  | node kr h c p l r ihl ihr =>
      intro k hb hmem
      rw [isBST_node_iff] at hb
      obtain ⟨hkl, hkr, hbl, hbr⟩ := hb
      by_cases hkk : kr = k
      · subst hkk
        have hf : AVLFind (node kr h c p l r) kr = node kr h c p l r := by
          simp only [AVLFind, (isKeyEqual_iff kr kr).mpr rfl, if_true]
        cases r with
        | nil =>
            have h1 : nextNode (node kr h c p l nil) kr =
                climbRight (some kr) (ancestors (node kr h c p l nil) kr) := by
              simp only [nextNode, hf]
            rw [h1, show ancestors (node kr h c p l nil) kr = [] from by
              simp [ancestors, (isKeyEqual_iff kr kr).mpr rfl]]
            rw [show climbRight (some kr) ([] : List (Tree α)) = none from rfl]
            rw [keys_node, keys_nil,
              find?_append_false _ _ (fun x hx => by
                simp [not_lt.mpr (hkl x hx).le]),
              List.find?_cons_of_neg _ (by simp)]
            rfl
        | node rk2 rh2 rc2 rp2 rl2 rr2 =>
            obtain ⟨mk, mh2, mc2, mp2, ms, rest, hfm, hrest⟩ :=
              findMin_spec (node rk2 rh2 rc2 rp2 rl2 rr2) (by simp)
            have h1 : nextNode (node kr h c p l (node rk2 rh2 rc2 rp2 rl2 rr2)) kr =
                keyOf (findMin (node rk2 rh2 rc2 rp2 rl2 rr2)) := by
              simp only [nextNode, hf]
            rw [h1, hfm, keyOf_node, keys_node, hrest,
              find?_append_false _ _ (fun x hx => by
                simp [not_lt.mpr (hkl x hx).le]),
              List.find?_cons_of_neg _ (by simp),
              List.find?_cons_of_pos _ (by
                simp [hkr mk (by rw [hrest]; simp)])]
      · have hiseq : isKeyEqual kr k = false := isKeyEqual_false hkk
        by_cases hklt : kr < k
        · -- the key lives in the right subtree
          have hmr : k ∈ keys r := by
            simp only [keys_node, List.mem_append, List.mem_cons] at hmem
            rcases hmem with hx | rfl | hx
            · exact absurd (hkl k hx) (not_lt.mpr hklt.le)
            · exact absurd rfl hkk
            · exact hx
          cases r with
          | nil => simp at hmr
          | node rk2 rh2 rc2 rp2 rl2 rr2 =>
              have hfstep : AVLFind (node kr h c p l (node rk2 rh2 rc2 rp2 rl2 rr2)) k =
                  AVLFind (node rk2 rh2 rc2 rp2 rl2 rr2) k := by
                simp only [AVLFind, hiseq, Bool.false_eq_true, if_false, if_pos hklt]
              have hkey := AVLFind_mem_keyOf (node rk2 rh2 rc2 rp2 rl2 rr2) k hbr hmr
              have hRHS : (keys (node kr h c p l (node rk2 rh2 rc2 rp2 rl2 rr2))).find?
                    (fun x => decide (k < x)) =
                  (keys (node rk2 rh2 rc2 rp2 rl2 rr2)).find? (fun x => decide (k < x)) := by
                rw [keys_node, find?_append_false _ _ (fun x hx => by
                    simp [not_lt.mpr (lt_trans (hkl x hx) hklt).le]),
                  List.find?_cons_of_neg _ (by simp [not_lt.mpr hklt.le])]
              cases hfr : AVLFind (node rk2 rh2 rc2 rp2 rl2 rr2) k with
              | nil => rw [hfr] at hkey; simp at hkey
              | node fk fh fc fp fl fr =>
                  cases fr with
                  | node gk gh gc gp gl gr =>
                      have h1 : nextNode (node kr h c p l (node rk2 rh2 rc2 rp2 rl2 rr2)) k =
                          keyOf (findMin (node gk gh gc gp gl gr)) := by
                        simp only [nextNode, hfstep, hfr]
                      have h2 : nextNode (node rk2 rh2 rc2 rp2 rl2 rr2) k =
                          keyOf (findMin (node gk gh gc gp gl gr)) := by
                        simp only [nextNode, hfr]
                      rw [h1, ← h2, ihr k hbr hmr, hRHS]
                  | nil =>
                      have h1 : nextNode (node kr h c p l (node rk2 rh2 rc2 rp2 rl2 rr2)) k =
                          climbRight (some k)
                            (ancestors (node kr h c p l (node rk2 rh2 rc2 rp2 rl2 rr2)) k) := by
                        simp only [nextNode, hfstep, hfr]
                      have h2 : nextNode (node rk2 rh2 rc2 rp2 rl2 rr2) k =
                          climbRight (some k) (ancestors (node rk2 rh2 rc2 rp2 rl2 rr2) k) := by
                        simp only [nextNode, hfr]
                      have hihr := ihr k hbr hmr
                      rw [h2] at hihr
                      have hanc : ancestors (node kr h c p l (node rk2 rh2 rc2 rp2 rl2 rr2)) k =
                          ancestors (node rk2 rh2 rc2 rp2 rl2 rr2) k ++
                            [node kr h c p l (node rk2 rh2 rc2 rp2 rl2 rr2)] := by
                        simp [ancestors, hiseq, hklt]
                      rw [h1, hanc,
                        climbRight_append _ _ _ (ancestors_nonnil (node rk2 rh2 rc2 rp2 rl2 rr2) k),
                        hihr]
                      cases hF : (keys (node rk2 rh2 rc2 rp2 rl2 rr2)).find?
                          (fun x => decide (k < x)) with
                      | some x =>
                          rw [hRHS, hF]
                      | none =>
                          have hlast : lastKeyD (some k)
                              (ancestors (node rk2 rh2 rc2 rp2 rl2 rr2) k) = some rk2 := by
                            by_cases hre : isKeyEqual rk2 k = true
                            · rw [show ancestors (node rk2 rh2 rc2 rp2 rl2 rr2) k = []
                                from by simp [ancestors, hre], lastKeyD_nil,
                                (isKeyEqual_iff rk2 k).mp hre]
                            · rw [show ancestors (node rk2 rh2 rc2 rp2 rl2 rr2) k =
                                  (if rk2 < k then ancestors rr2 k else ancestors rl2 k) ++
                                    [node rk2 rh2 rc2 rp2 rl2 rr2] from by
                                  simp only [ancestors, hre, Bool.false_eq_true, if_false]
                                  split <;> rfl,
                                lastKeyD_concat, keyOf_node]
                          rw [hlast,
                            show climbRight (some rk2)
                                [node kr h c p l (node rk2 rh2 rc2 rp2 rl2 rr2)] = none from by
                              simp [climbRight],
                            hRHS, hF]
        · -- the key lives in the left subtree
          have hkeylt : k < kr := lt_of_le_of_ne (not_lt.mp hklt) (fun hx => hkk hx.symm)
          have hml : k ∈ keys l := by
            simp only [keys_node, List.mem_append, List.mem_cons] at hmem
            rcases hmem with hx | rfl | hx
            · exact hx
            · exact absurd rfl hkk
            · exact absurd (hkr k hx) (not_lt.mpr hkeylt.le)
          cases l with
          | nil => simp at hml
          | node lk2 lh2 lc2 lp2 ll2 lr2 =>
              have hfstep : AVLFind (node kr h c p (node lk2 lh2 lc2 lp2 ll2 lr2) r) k =
                  AVLFind (node lk2 lh2 lc2 lp2 ll2 lr2) k := by
                simp only [AVLFind, hiseq, Bool.false_eq_true, if_false, if_neg hklt]
              have hkey := AVLFind_mem_keyOf (node lk2 lh2 lc2 lp2 ll2 lr2) k hbl hml
              cases hfr : AVLFind (node lk2 lh2 lc2 lp2 ll2 lr2) k with
              | nil => rw [hfr] at hkey; simp at hkey
              | node fk fh fc fp fl fr =>
                  cases fr with
                  | node gk gh gc gp gl gr =>
                      have h1 : nextNode (node kr h c p (node lk2 lh2 lc2 lp2 ll2 lr2) r) k =
                          keyOf (findMin (node gk gh gc gp gl gr)) := by
                        simp only [nextNode, hfstep, hfr]
                      have h2 : nextNode (node lk2 lh2 lc2 lp2 ll2 lr2) k =
                          keyOf (findMin (node gk gh gc gp gl gr)) := by
                        simp only [nextNode, hfr]
                      obtain ⟨mk, mh2, mc2, mp2, ms, rest, hfm, hrest⟩ :=
                        findMin_spec (node gk gh gc gp gl gr) (by simp)
                      have hsome : (keys (node lk2 lh2 lc2 lp2 ll2 lr2)).find?
                          (fun x => decide (k < x)) = some mk := by
                        rw [← ihl k hbl hml, h2, hfm, keyOf_node]
                      rw [h1, hfm, keyOf_node, keys_node,
                        find?_append_some _ _ _ hsome]
                  | nil =>
                      have h1 : nextNode (node kr h c p (node lk2 lh2 lc2 lp2 ll2 lr2) r) k =
                          climbRight (some k)
                            (ancestors (node kr h c p (node lk2 lh2 lc2 lp2 ll2 lr2) r) k) := by
                        simp only [nextNode, hfstep, hfr]
                      have h2 : nextNode (node lk2 lh2 lc2 lp2 ll2 lr2) k =
                          climbRight (some k) (ancestors (node lk2 lh2 lc2 lp2 ll2 lr2) k) := by
                        simp only [nextNode, hfr]
                      have hihl := ihl k hbl hml
                      rw [h2] at hihl
                      have hanc : ancestors (node kr h c p (node lk2 lh2 lc2 lp2 ll2 lr2) r) k =
                          ancestors (node lk2 lh2 lc2 lp2 ll2 lr2) k ++
                            [node kr h c p (node lk2 lh2 lc2 lp2 ll2 lr2) r] := by
                        simp [ancestors, hiseq, hklt]
                      rw [h1, hanc,
                        climbRight_append _ _ _ (ancestors_nonnil (node lk2 lh2 lc2 lp2 ll2 lr2) k),
                        hihl]
                      cases hF : (keys (node lk2 lh2 lc2 lp2 ll2 lr2)).find?
                          (fun x => decide (k < x)) with
                      | some x =>
                          rw [keys_node, find?_append_some _ _ _ hF]
                      | none =>
                          have hlast : lastKeyD (some k)
                              (ancestors (node lk2 lh2 lc2 lp2 ll2 lr2) k) = some lk2 := by
                            by_cases hre : isKeyEqual lk2 k = true
                            · rw [show ancestors (node lk2 lh2 lc2 lp2 ll2 lr2) k = []
                                from by simp [ancestors, hre], lastKeyD_nil,
                                (isKeyEqual_iff lk2 k).mp hre]
                            · rw [show ancestors (node lk2 lh2 lc2 lp2 ll2 lr2) k =
                                  (if lk2 < k then ancestors lr2 k else ancestors ll2 k) ++
                                    [node lk2 lh2 lc2 lp2 ll2 lr2] from by
                                  simp only [ancestors, hre, Bool.false_eq_true, if_false]
                                  split <;> rfl,
                                lastKeyD_concat, keyOf_node]
                          have hlk2 : lk2 < kr :=
                            hkl lk2 (by simp)
                          have hclimb : climbRight (some lk2)
                              [node kr h c p (node lk2 lh2 lc2 lp2 ll2 lr2) r] = some kr := by
                            have hcond : keyOf (rightOf
                                (node kr h c p (node lk2 lh2 lc2 lp2 ll2 lr2) r)) ≠ some lk2 := by
                              rw [rightOf_node]
                              cases r with
                              | nil => simp
                              | node rk3 rh3 rc3 rp3 rl3 rr3 =>
                                  rw [keyOf_node]
                                  intro hx
                                  rw [Option.some.injEq] at hx
                                  exact absurd (hkr rk3 (by simp))
                                    (not_lt.mpr (hx ▸ hlk2.le))
                            simp only [climbRight, if_neg hcond, keyOf_node]
                          rw [hlast, hclimb, keys_node,
                            find?_append_false _ _ (fun x hx => by
                              simp only [decide_eq_false_iff_not, not_lt]
                              have := List.find?_eq_none.mp hF x hx
                              simpa using this),
                            List.find?_cons_of_pos _ (by simp [hkeylt])]

theorem keys_reverse (kr : α) (h c p l r) :
    (keys (node kr h c p l r)).reverse = (keys r).reverse ++ kr :: (keys l).reverse := by
  simp [keys_node]

/-- Where `prevNode` (src/set.h:209) actually steps to on a BST: the first
stored key strictly smaller than the current one, scanning the inorder
sequence backwards. -/
theorem prevNode_pred (t : Tree α) : ∀ (k : α), isBST t = true → k ∈ keys t →
    prevNode t k = (keys t).reverse.find? (fun x => decide (x < k)) := by
  induction t with
  | nil => intro k _ hmem; simp at hmem
  | node kr h c p l r ihl ihr =>
      intro k hb hmem
      rw [isBST_node_iff] at hb
      obtain ⟨hkl, hkr, hbl, hbr⟩ := hb
      by_cases hkk : kr = k
      · subst hkk
        have hf : AVLFind (node kr h c p l r) kr = node kr h c p l r := by
          simp only [AVLFind, (isKeyEqual_iff kr kr).mpr rfl, if_true]
        cases l with
        | nil =>
            have h1 : prevNode (node kr h c p nil r) kr =
                climbLeft (some kr) (ancestors (node kr h c p nil r) kr) := by
              simp only [prevNode, hf]
            rw [h1, show ancestors (node kr h c p nil r) kr = [] from by
              simp [ancestors, (isKeyEqual_iff kr kr).mpr rfl]]
            rw [show climbLeft (some kr) ([] : List (Tree α)) = none from rfl]
            rw [keys_reverse,
              find?_append_false _ _ (fun x hx => by
                simp only [List.mem_reverse] at hx
                simp [not_lt.mpr (hkr x hx).le]),
              List.find?_cons_of_neg _ (by simp)]
            rfl
        | node lk2 lh2 lc2 lp2 ll2 lr2 =>
            obtain ⟨mk, mh2, mc2, mp2, ms, rest, hfm, hrest⟩ :=
              findMax_spec (node lk2 lh2 lc2 lp2 ll2 lr2) (by simp)
            have h1 : prevNode (node kr h c p (node lk2 lh2 lc2 lp2 ll2 lr2) r) kr =
                keyOf (findMax (node lk2 lh2 lc2 lp2 ll2 lr2)) := by
              simp only [prevNode, hf]
            rw [h1, hfm, keyOf_node, keys_reverse, hrest,
              find?_append_false _ _ (fun x hx => by
                simp only [List.mem_reverse] at hx
                simp [not_lt.mpr (hkr x hx).le]),
              List.find?_cons_of_neg _ (by simp),
              show (rest ++ [mk]).reverse = mk :: rest.reverse from by simp,
              List.find?_cons_of_pos _ (by
                simp [hkl mk (by rw [hrest]; simp)])]
      · have hiseq : isKeyEqual kr k = false := isKeyEqual_false hkk
        by_cases hklt : kr < k
        · -- the key lives in the right subtree
          have hmr : k ∈ keys r := by
            simp only [keys_node, List.mem_append, List.mem_cons] at hmem
            rcases hmem with hx | rfl | hx
            · exact absurd (hkl k hx) (not_lt.mpr hklt.le)
            · exact absurd rfl hkk
            · exact hx
          cases r with
          | nil => simp at hmr
          | node rk2 rh2 rc2 rp2 rl2 rr2 =>
              have hfstep : AVLFind (node kr h c p l (node rk2 rh2 rc2 rp2 rl2 rr2)) k =
                  AVLFind (node rk2 rh2 rc2 rp2 rl2 rr2) k := by
                simp only [AVLFind, hiseq, Bool.false_eq_true, if_false, if_pos hklt]
              have hkey := AVLFind_mem_keyOf (node rk2 rh2 rc2 rp2 rl2 rr2) k hbr hmr
              cases hfr : AVLFind (node rk2 rh2 rc2 rp2 rl2 rr2) k with
              | nil => rw [hfr] at hkey; simp at hkey
              | node fk fh fc fp fl fr =>
                  cases fl with
                  | node gk gh gc gp gl gr =>
                      have h1 : prevNode (node kr h c p l (node rk2 rh2 rc2 rp2 rl2 rr2)) k =
                          keyOf (findMax (node gk gh gc gp gl gr)) := by
                        simp only [prevNode, hfstep, hfr]
                      have h2 : prevNode (node rk2 rh2 rc2 rp2 rl2 rr2) k =
                          keyOf (findMax (node gk gh gc gp gl gr)) := by
                        simp only [prevNode, hfr]
                      obtain ⟨mk, mh2, mc2, mp2, ms, rest, hfm, hrest⟩ :=
                        findMax_spec (node gk gh gc gp gl gr) (by simp)
                      have hsome : (keys (node rk2 rh2 rc2 rp2 rl2 rr2)).reverse.find?
                          (fun x => decide (x < k)) = some mk := by
                        rw [← ihr k hbr hmr, h2, hfm, keyOf_node]
                      rw [h1, hfm, keyOf_node, keys_reverse,
                        find?_append_some _ _ _ hsome]
                  | nil =>
                      have h1 : prevNode (node kr h c p l (node rk2 rh2 rc2 rp2 rl2 rr2)) k =
                          climbLeft (some k)
                            (ancestors (node kr h c p l (node rk2 rh2 rc2 rp2 rl2 rr2)) k) := by
                        simp only [prevNode, hfstep, hfr]
                      have h2 : prevNode (node rk2 rh2 rc2 rp2 rl2 rr2) k =
                          climbLeft (some k) (ancestors (node rk2 rh2 rc2 rp2 rl2 rr2) k) := by
                        simp only [prevNode, hfr]
                      have hihr := ihr k hbr hmr
                      rw [h2] at hihr
                      have hanc : ancestors (node kr h c p l (node rk2 rh2 rc2 rp2 rl2 rr2)) k =
                          ancestors (node rk2 rh2 rc2 rp2 rl2 rr2) k ++
                            [node kr h c p l (node rk2 rh2 rc2 rp2 rl2 rr2)] := by
                        simp [ancestors, hiseq, hklt]
                      rw [h1, hanc,
                        climbLeft_append _ _ _ (ancestors_nonnil (node rk2 rh2 rc2 rp2 rl2 rr2) k),
                        hihr]
                      cases hF : (keys (node rk2 rh2 rc2 rp2 rl2 rr2)).reverse.find?
                          (fun x => decide (x < k)) with
                      | some x =>
                          rw [keys_reverse, find?_append_some _ _ _ hF]
                      | none =>
                          have hlast : lastKeyD (some k)
                              (ancestors (node rk2 rh2 rc2 rp2 rl2 rr2) k) = some rk2 := by
                            by_cases hre : isKeyEqual rk2 k = true
                            · rw [show ancestors (node rk2 rh2 rc2 rp2 rl2 rr2) k = []
                                from by simp [ancestors, hre], lastKeyD_nil,
                                (isKeyEqual_iff rk2 k).mp hre]
                            · rw [show ancestors (node rk2 rh2 rc2 rp2 rl2 rr2) k =
                                  (if rk2 < k then ancestors rr2 k else ancestors rl2 k) ++
                                    [node rk2 rh2 rc2 rp2 rl2 rr2] from by
                                  simp only [ancestors, hre, Bool.false_eq_true, if_false]
                                  split <;> rfl,
                                lastKeyD_concat, keyOf_node]
                          have hrk2 : kr < rk2 :=
                            hkr rk2 (by simp)
                          have hclimb : climbLeft (some rk2)
                              [node kr h c p l (node rk2 rh2 rc2 rp2 rl2 rr2)] = some kr := by
                            have hcond : keyOf (leftOf
                                (node kr h c p l (node rk2 rh2 rc2 rp2 rl2 rr2))) ≠
                                  some rk2 := by
                              rw [leftOf_node]
                              cases l with
                              | nil => simp
                              | node lk3 lh3 lc3 lp3 ll3 lr3 =>
                                  rw [keyOf_node]
                                  intro hx
                                  rw [Option.some.injEq] at hx
                                  exact absurd (hkl lk3 (by simp))
                                    (not_lt.mpr (hx ▸ hrk2.le))
                            simp only [climbLeft, if_neg hcond, keyOf_node]
                          rw [hlast, hclimb, keys_reverse,
                            find?_append_false _ _ (fun x hx => by
                              simp only [decide_eq_false_iff_not, not_lt]
                              have := List.find?_eq_none.mp hF x hx
                              simpa using this),
                            List.find?_cons_of_pos _ (by simp [hklt])]
        · -- the key lives in the left subtree
          have hkeylt : k < kr := lt_of_le_of_ne (not_lt.mp hklt) (fun hx => hkk hx.symm)
          have hml : k ∈ keys l := by
            simp only [keys_node, List.mem_append, List.mem_cons] at hmem
            rcases hmem with hx | rfl | hx
            · exact hx
            · exact absurd rfl hkk
            · exact absurd (hkr k hx) (not_lt.mpr hkeylt.le)
          cases l with
          | nil => simp at hml
          | node lk2 lh2 lc2 lp2 ll2 lr2 =>
              have hfstep : AVLFind (node kr h c p (node lk2 lh2 lc2 lp2 ll2 lr2) r) k =
                  AVLFind (node lk2 lh2 lc2 lp2 ll2 lr2) k := by
                simp only [AVLFind, hiseq, Bool.false_eq_true, if_false, if_neg hklt]
              have hkey := AVLFind_mem_keyOf (node lk2 lh2 lc2 lp2 ll2 lr2) k hbl hml
              have hRHS : (keys (node kr h c p (node lk2 lh2 lc2 lp2 ll2 lr2) r)).reverse.find?
                    (fun x => decide (x < k)) =
                  (keys (node lk2 lh2 lc2 lp2 ll2 lr2)).reverse.find?
                    (fun x => decide (x < k)) := by
                rw [keys_reverse, find?_append_false _ _ (fun x hx => by
                    simp only [List.mem_reverse] at hx
                    simp [not_lt.mpr (lt_trans hkeylt (hkr x hx)).le]),
                  List.find?_cons_of_neg _ (by simp [not_lt.mpr hkeylt.le])]
              cases hfr : AVLFind (node lk2 lh2 lc2 lp2 ll2 lr2) k with
              | nil => rw [hfr] at hkey; simp at hkey
              | node fk fh fc fp fl fr =>
                  cases fl with
                  | node gk gh gc gp gl gr =>
                      have h1 : prevNode (node kr h c p (node lk2 lh2 lc2 lp2 ll2 lr2) r) k =
                          keyOf (findMax (node gk gh gc gp gl gr)) := by
                        simp only [prevNode, hfstep, hfr]
                      have h2 : prevNode (node lk2 lh2 lc2 lp2 ll2 lr2) k =
                          keyOf (findMax (node gk gh gc gp gl gr)) := by
                        simp only [prevNode, hfr]
                      rw [h1, ← h2, ihl k hbl hml, hRHS]
                  | nil =>
                      have h1 : prevNode (node kr h c p (node lk2 lh2 lc2 lp2 ll2 lr2) r) k =
                          climbLeft (some k)
                            (ancestors (node kr h c p (node lk2 lh2 lc2 lp2 ll2 lr2) r) k) := by
                        simp only [prevNode, hfstep, hfr]
                      have h2 : prevNode (node lk2 lh2 lc2 lp2 ll2 lr2) k =
                          climbLeft (some k) (ancestors (node lk2 lh2 lc2 lp2 ll2 lr2) k) := by
                        simp only [prevNode, hfr]
                      have hihl := ihl k hbl hml
                      rw [h2] at hihl
                      have hanc : ancestors (node kr h c p (node lk2 lh2 lc2 lp2 ll2 lr2) r) k =
                          ancestors (node lk2 lh2 lc2 lp2 ll2 lr2) k ++
                            [node kr h c p (node lk2 lh2 lc2 lp2 ll2 lr2) r] := by
                        simp [ancestors, hiseq, hklt]
                      rw [h1, hanc,
                        climbLeft_append _ _ _ (ancestors_nonnil (node lk2 lh2 lc2 lp2 ll2 lr2) k),
                        hihl]
                      cases hF : (keys (node lk2 lh2 lc2 lp2 ll2 lr2)).reverse.find?
                          (fun x => decide (x < k)) with
                      | some x =>
                          rw [hRHS, hF]
                      | none =>
                          have hlast : lastKeyD (some k)
                              (ancestors (node lk2 lh2 lc2 lp2 ll2 lr2) k) = some lk2 := by
                            by_cases hre : isKeyEqual lk2 k = true
                            · rw [show ancestors (node lk2 lh2 lc2 lp2 ll2 lr2) k = []
                                from by simp [ancestors, hre], lastKeyD_nil,
                                (isKeyEqual_iff lk2 k).mp hre]
                            · rw [show ancestors (node lk2 lh2 lc2 lp2 ll2 lr2) k =
                                  (if lk2 < k then ancestors lr2 k else ancestors ll2 k) ++
                                    [node lk2 lh2 lc2 lp2 ll2 lr2] from by
                                  simp only [ancestors, hre, Bool.false_eq_true, if_false]
                                  split <;> rfl,
                                lastKeyD_concat, keyOf_node]
                          rw [hlast,
                            show climbLeft (some lk2)
                                [node kr h c p (node lk2 lh2 lc2 lp2 ll2 lr2) r] = none from by
                              simp [climbLeft],
                            hRHS, hF]

/-! ### Full traversals. -/

theorem findMin_keyOf (t : Tree α) : keyOf (findMin t) = (keys t).head? := by
  cases t with
  | nil => rfl
  | node k h c p l r =>
      obtain ⟨mk, mh, mc, mp, ms, rest, hfm, hrest⟩ := findMin_spec (node k h c p l r) (by simp)
      rw [hfm, keyOf_node, hrest]
      rfl

theorem findMax_keyOf (t : Tree α) : keyOf (findMax t) = (keys t).getLast? := by
  cases t with
  | nil => rfl
  | node k h c p l r =>
      obtain ⟨mk, mh, mc, mp, ms, rest, hfm, hrest⟩ := findMax_spec (node k h c p l r) (by simp)
      rw [hfm, keyOf_node, hrest, List.getLast?_concat]

/-- In a strictly sorted list split as `pre ++ x :: suf`, the first element
greater than `x` is the head of `suf`. -/
theorem sorted_find?_gt (pre : List α) (x : α) (suf : List α)
    (hs : (pre ++ x :: suf).Pairwise (fun a b => a < b)) :
    (pre ++ x :: suf).find? (fun y => decide (x < y)) = suf.head? := by
  have hs2 := hs
  rw [List.pairwise_append] at hs2
  have hpre : ∀ a ∈ pre, a < x :=
    fun a ha => hs2.2.2 a ha x (List.mem_cons_self x suf)
  have hsuf : ∀ a ∈ suf, x < a := by
    have := hs2.2.1
    rw [List.pairwise_cons] at this
    exact this.1
  rw [find?_append_false _ _ (fun a ha => by simp [not_lt.mpr (hpre a ha).le]),
    List.find?_cons_of_neg _ (by simp)]
  cases suf with
  | nil => rfl
  | cons b bs =>
      rw [List.find?_cons_of_pos _ (by simp [hsuf b (List.mem_cons_self b bs)])]
      rfl

/-- In a strictly sorted list split as `pre ++ x :: suf`, the first element
smaller than `x` when scanning backwards is the last element of `pre`. -/
theorem sorted_rev_find?_lt (pre : List α) (x : α) (suf : List α)
    (hs : (pre ++ x :: suf).Pairwise (fun a b => a < b)) :
    (pre ++ x :: suf).reverse.find? (fun y => decide (y < x)) = pre.getLast? := by
  have hs2 := hs
  rw [List.pairwise_append] at hs2
  have hpre : ∀ a ∈ pre, a < x :=
    fun a ha => hs2.2.2 a ha x (List.mem_cons_self x suf)
  have hsuf : ∀ a ∈ suf, x < a := by
    have := hs2.2.1
    rw [List.pairwise_cons] at this
    exact this.1
  rw [show (pre ++ x :: suf).reverse = suf.reverse ++ x :: pre.reverse from by simp,
    find?_append_false _ _ (fun a ha => by
      simp only [List.mem_reverse] at ha
      simp [not_lt.mpr (hsuf a ha).le]),
    List.find?_cons_of_neg _ (by simp)]
  have hfind : pre.reverse.find? (fun y => decide (y < x)) = pre.reverse.head? := by
    cases hrev : pre.reverse with
    | nil => rfl
    | cons b bs =>
        have hb : b ∈ pre := by
          rw [← List.mem_reverse, hrev]
          exact List.mem_cons_self b bs
        rw [List.find?_cons_of_pos _ (by simp [hpre b hb])]
        rfl
  rw [hfind, List.head?_reverse]

/-- Iterating `operator++` from the head of a suffix of the sorted key
sequence visits exactly that suffix. -/
theorem iterFwd_suffix (t : Tree α) (hb : isBST t = true) :
    ∀ (suf pre : List α) (fuel : Nat), keys t = pre ++ suf → suf.length ≤ fuel →
    iterFwd t fuel suf.head? = suf := by
  intro suf
  induction suf with
  | nil =>
      intro pre fuel _ _
      cases fuel <;> rfl
  | cons a as ih =>
      intro pre fuel hsplit hfuel
      cases fuel with
      | zero => simp at hfuel
      | succ f =>
          rw [show (a :: as).head? = some a from rfl,
            show iterFwd t (f + 1) (some a) = a :: iterFwd t f (nextNode t a) from rfl]
          have hmem : a ∈ keys t := by
            rw [hsplit]
            simp
          rw [nextNode_succ t a hb hmem, hsplit,
            sorted_find?_gt pre a as (hsplit ▸ keys_sorted hb)]
          exact congrArg (a :: ·) (ih (pre ++ [a]) f
            (by rw [hsplit]; simp) (by simp at hfuel ⊢; omega))

/-- The full forward traversal from `begin()` visits exactly the inorder key
sequence. -/
theorem traversal_eq_keys {t : Tree α} (hb : isBST t = true) : traversal t = keys t := by
  cases t with
  | nil => rfl
  | node k h c p l r =>
      have hbegin : beginPos (node k h c p l r) = (keys (node k h c p l r)).head? := by
        rw [beginPos, findMin_keyOf]
      rw [traversal, hbegin]
      exact iterFwd_suffix (node k h c p l r) hb (keys (node k h c p l r)) [] _
        (by simp) (by rw [length_keys]; omega)

theorem iterBwd_step_none (t : Tree α) (f : Nat) (pos : Option α)
    (h : decPos t pos = none) : iterBwd t (f + 1) pos = [] := by
  rw [show iterBwd t (f + 1) pos =
      (match decPos t pos with
        | none => []
        | some k => k :: iterBwd t f (some k)) from rfl, h]

theorem iterBwd_step_some (t : Tree α) (f : Nat) (pos : Option α) (k : α)
    (h : decPos t pos = some k) : iterBwd t (f + 1) pos = k :: iterBwd t f (some k) := by
  rw [show iterBwd t (f + 1) pos =
      (match decPos t pos with
        | none => []
        | some k => k :: iterBwd t f (some k)) from rfl, h]

/-- Iterating `operator--` with the cursor sitting at the head of a suffix of
the sorted key sequence (end for the empty suffix) visits the prefix before
it, backwards. -/
theorem iterBwd_prefix (t : Tree α) (hb : isBST t = true) :
    ∀ (fuel : Nat) (pre suf : List α), keys t = pre ++ suf → pre.length + 1 ≤ fuel →
    iterBwd t fuel suf.head? = pre.reverse := by
  intro fuel
  induction fuel with
  | zero => intro pre suf _ hfuel; simp at hfuel
  | succ f ih =>
      intro pre suf hsplit hfuel
      have hdec : decPos t suf.head? = pre.getLast? := by
        cases suf with
        | nil =>
            rw [show ([] : List α).head? = none from rfl, decPos, findMax_keyOf, hsplit]
            simp
        | cons a as =>
            rw [show (a :: as).head? = some a from rfl, decPos]
            have hmem : a ∈ keys t := by
              rw [hsplit]
              simp
            rw [prevNode_pred t a hb hmem, hsplit,
              sorted_rev_find?_lt pre a as (hsplit ▸ keys_sorted hb)]
      rcases List.eq_nil_or_concat pre with rfl | ⟨pre2, b, rfl⟩
      · rw [iterBwd_step_none t f _ (by rw [hdec]; rfl)]
        rfl
      · simp only [List.concat_eq_append] at hsplit hfuel hdec ⊢
        have hsome : decPos t suf.head? = some b := by
          rw [hdec, List.getLast?_concat]
        have hstep := ih pre2 (b :: suf)
          (by rw [hsplit]; simp) (by simp at hfuel ⊢; omega)
        rw [show (b :: suf).head? = some b from rfl] at hstep
        rw [iterBwd_step_some t f _ b hsome, hstep]
        simp

/-- The full backward traversal from `end()` visits the inorder key sequence
reversed. -/
theorem traversalBwd_eq_reverse {t : Tree α} (hb : isBST t = true) :
    traversalBwd t = (keys t).reverse := by
  rw [traversalBwd,
    show (none : Option α) = ([] : List α).head? from rfl]
  exact iterBwd_prefix t hb _ (keys t) [] (by simp) (by rw [length_keys])

/-- On a well-formed tree `copyTree` reproduces the tree exactly: the copied
stale fields are all recomputed by the per-node `update`, and the recomputed
values coincide with the (correct) originals. -/
theorem copyTree_eq (t : Tree α) : cachesOk t = true → parentsBelow t = true →
    copyTree t = setParent none t := by
  induction t with
  | nil => intro _ _; rfl
  | node k h c p l r ihl ihr =>
      intro hc hp
      rw [cachesOk_node_iff] at hc
      obtain ⟨hh, hcc, hcl, hcr⟩ := hc
      rw [parentsBelow_node_iff] at hp
      obtain ⟨hp1, hp2⟩ := hp
      have hl := ihl hcl (parentsBelow_of_parentsOk hp1)
      have hr := ihr hcr (parentsBelow_of_parentsOk hp2)
      rw [show copyTree (node k h c p l r) =
          update (node k h c p (copyTree l) (copyTree r)) from rfl, hl, hr,
        update_eq _ _ _ _ _ _ (by simp [hcl]) (by simp [hcr])]
      simp only [realHeight_setParent, realCnt_setParent, setParent_setParent]
      rw [setParent_eq_self hp1, setParent_eq_self hp2, setParent_node, ← hh, ← hcc]

/-- On a balanced tree with exact caches, `getBalance` computes the exact
signed difference of the children's true heights at every node, despite the
unsigned intermediate arithmetic. -/
theorem getBalance_subtrees (t : Tree α) : isAvl t = true → cachesOk t = true →
    ∀ s ∈ subtrees t, s ≠ nil →
      getBalance s = some ((realHeight (rightOf s) : Int) - (realHeight (leftOf s) : Int)) := by
  induction t with
  | nil =>
      intro _ _ s hs hne
      simp only [subtrees, List.mem_singleton] at hs
      exact absurd hs hne
  | node k h c p l r ihl ihr =>
      intro ha hc s hs hne
      rw [isAvl_node_iff] at ha
      obtain ⟨ha1, ha2, hal, har⟩ := ha
      rw [cachesOk_node_iff] at hc
      obtain ⟨hh, hcc, hcl, hcr⟩ := hc
      simp only [subtrees, List.mem_cons, List.mem_append] at hs
      rcases hs with rfl | hs | hs
      · rw [getBalance_node, height_eq_realHeight hcl, height_eq_realHeight hcr,
          rightOf_node, leftOf_node,
          toInt32_usub64 _ _ (by push_cast; omega) (by push_cast; omega)]
      · exact ihl hal hcl s hs hne
      · exact ihr har hcr s hs hne

end Tree

open Tree

/-- C1: after every sequence of public inserts and erases on an initially
empty set, the tree is a valid BST, AVL-balanced at every node with respect
to the true subtree heights, and every node's stored parent pointer equals
its structural parent with a null parent at the root. -/
theorem C1_invariants_hold {α : Type u} [LinearOrder α] (ops : List (Op α)) (t : Tree α)
    (h : runOps ops = some t) :
    isBST t = true ∧ isAvl t = true ∧ parentsOk none t = true := by
  obtain ⟨t2, h2, hwf⟩ := runOps_WF ops
  rw [h] at h2
  obtain rfl : t = t2 := by
    exact Option.some.inj h2
  rw [WF_iff] at hwf
  exact ⟨hwf.1, hwf.2.1, hwf.2.2.2⟩

/-- C2: inserting a key already present (under `!(a<b) && !(b<a)`) returns the
tree unchanged; inserting a fresh key succeeds, adds exactly that key to the
membership, increments `size()` by one, and preserves well-formedness; and a
second insert of the same key is always a no-op. -/
theorem C2_insert_contract {α : Type u} [LinearOrder α] (t : Tree α) (key : α)
    (h : WF t = true) :
    (key ∈ keys t → AVLInsert t key none = some t) ∧
    (key ∉ keys t → ∃ t2, AVLInsert t key none = some t2 ∧ WF t2 = true ∧
      (∀ x, x ∈ keys t2 ↔ x = key ∨ x ∈ keys t) ∧ size t2 = size t + 1) ∧
    (∀ t2, AVLInsert t key none = some t2 → AVLInsert t2 key none = some t2) := by
  rw [WF_iff] at h
  obtain ⟨hb, ha, hc, hp⟩ := h
  have hpb := parentsBelow_of_parentsOk hp
  have hnoop : key ∈ keys t → AVLInsert t key none = some t := by
    intro hmem
    rcases AVLInsert_mem_spec t key none hb ha hc hpb hmem with hx | hx
    · exact hx
    · rw [setParent_eq_self hp] at hx
      exact hx
  have hfresh : key ∉ keys t → ∃ t2, AVLInsert t key none = some t2 ∧ WF t2 = true ∧
      (∀ x, x ∈ keys t2 ↔ x = key ∨ x ∈ keys t) ∧ size t2 = size t + 1 := by
    intro hmem
    obtain ⟨t2, heq, hkeys, hcnt, hb2, ha2, hc2, hp2, hroot2, _, _⟩ :=
      AVLInsert_notmem_spec t key none hb ha hc hpb hmem
    have hroot : rootPar t2 = none := by
      rcases hroot2 with hx | hx <;> exact hx
    refine ⟨t2, heq, ?_, hkeys, ?_⟩
    · rw [WF_iff]
      exact ⟨hb2, ha2, hc2, parentsOk_of_rootPar hroot hp2⟩
    · rw [size, size, cnt_eq_realCnt hc2, cnt_eq_realCnt hc, hcnt]
  refine ⟨hnoop, hfresh, ?_⟩
  intro t2 heq
  by_cases hmem : key ∈ keys t
  · rw [hnoop hmem] at heq
    obtain rfl : t = t2 := Option.some.inj heq
    exact hnoop hmem
  · obtain ⟨t3, heq3, hwf3, hkeys3, _⟩ := hfresh hmem
    rw [heq3] at heq
    obtain rfl : t3 = t2 := Option.some.inj heq
    rw [WF_iff] at hwf3
    obtain ⟨hb3, ha3, hc3, hp3⟩ := hwf3
    have hmem3 : key ∈ keys t3 := (hkeys3 key).mpr (Or.inl rfl)
    rcases AVLInsert_mem_spec t3 key none hb3 ha3 hc3
        (parentsBelow_of_parentsOk hp3) hmem3 with hx | hx
    · exact hx
    · rw [setParent_eq_self hp3] at hx
      exact hx

/-- C3: erasing an absent key (including one never inserted) returns the tree
unchanged; erasing a present key removes exactly that key, decrements
`size()` by one and preserves well-formedness; and in all cases `find` on the
erased key afterwards returns the end cursor (a null node). -/
theorem C3_erase_contract {α : Type u} [LinearOrder α] (t : Tree α) (key : α)
    (h : WF t = true) :
    (key ∉ keys t → AVLErase t key = some t) ∧
    (key ∈ keys t → ∃ t2, AVLErase t key = some t2 ∧ WF t2 = true ∧
      (∀ x, x ∈ keys t2 ↔ x ∈ keys t ∧ x ≠ key) ∧ size t = size t2 + 1) ∧
    (∀ t2, AVLErase t key = some t2 → AVLFind t2 key = nil) := by
  rw [WF_iff] at h
  obtain ⟨hb, ha, hc, hp⟩ := h
  have hpb := parentsBelow_of_parentsOk hp
  have hnoop : key ∉ keys t → AVLErase t key = some t := by
    intro hmem
    rcases AVLErase_notmem_spec t key hb ha hc hpb hmem with hx | hx
    · exact hx
    · rw [setParent_eq_self hp] at hx
      exact hx
  have hdel : key ∈ keys t → ∃ t2, AVLErase t key = some t2 ∧ WF t2 = true ∧
      (∀ x, x ∈ keys t2 ↔ x ∈ keys t ∧ x ≠ key) ∧ size t = size t2 + 1 := by
    intro hmem
    obtain ⟨t2, heq, hkeys, hcnt, hb2, ha2, hc2, hp2, hroot2, _, _⟩ :=
      AVLErase_mem_spec t key hb ha hc hpb hmem
    refine ⟨t2, heq, ?_, hkeys, ?_⟩
    · rw [WF_iff]
      exact ⟨hb2, ha2, hc2, parentsOk_of_rootPar hroot2 hp2⟩
    · rw [size, size, cnt_eq_realCnt hc2, cnt_eq_realCnt hc, hcnt]
  refine ⟨hnoop, hdel, ?_⟩
  intro t2 heq
  by_cases hmem : key ∈ keys t
  · obtain ⟨t3, heq3, hwf3, hkeys3, _⟩ := hdel hmem
    rw [heq3] at heq
    obtain rfl : t3 = t2 := Option.some.inj heq
    rw [WF_iff] at hwf3
    have hnot : key ∉ keys t3 := by
      intro hx
      exact ((hkeys3 key).mp hx).2 rfl
    exact AVLFind_notmem t3 key hwf3.1 hnot
  · rw [hnoop hmem] at heq
    obtain rfl : t = t2 := Option.some.inj heq
    exact AVLFind_notmem t key hb hmem

/-- C4: on a BST, `lower_bound(x)` returns the end cursor (null node) exactly
when no stored key is `≥ x`; otherwise it returns a cursor on a stored key
`m ≥ x` such that no stored key `k` satisfies `x ≤ k < m`. -/
theorem C4_lower_bound {α : Type u} [LinearOrder α] (t : Tree α) (x : α)
    (h : isBST t = true) :
    (AVLLowerBound t x = nil ↔ ∀ k ∈ keys t, k < x) ∧
    (∀ m, keyOf (AVLLowerBound t x) = some m →
      m ∈ keys t ∧ x ≤ m ∧ ∀ k ∈ keys t, x ≤ k → m ≤ k) :=
  AVLLowerBound_spec t x h

/-- C5: the sequence of keys visited by `operator++` from `begin()` to
`end()` is strictly increasing, and the sequence visited by `operator--`
starting from `end()` is exactly that sequence reversed. -/
theorem C5_traversal_order {α : Type u} [LinearOrder α] (t : Tree α) (h : WF t = true) :
    List.Pairwise (fun a b => a < b) (traversal t) ∧
    traversalBwd t = (traversal t).reverse := by
  rw [WF_iff] at h
  rw [traversal_eq_keys h.1, traversalBwd_eq_reverse h.1]
  exact ⟨keys_sorted h.1, rfl⟩

/-- C6: on every reachable set, `size()` (the root's cached `cnt` field)
equals the number of cursor positions of a full forward traversal, and every
node's cached `height` and `cnt` fields equal the true height and size of its
subtree. -/
theorem C6_size_and_caches {α : Type u} [LinearOrder α] (ops : List (Op α)) (t : Tree α)
    (h : runOps ops = some t) :
    size t = (traversal t).length ∧ cachesOk t = true := by
  obtain ⟨t2, h2, hwf⟩ := runOps_WF ops
  rw [h] at h2
  obtain rfl : t = t2 := Option.some.inj h2
  rw [WF_iff] at hwf
  obtain ⟨hb, _, hc, _⟩ := hwf
  refine ⟨?_, hc⟩
  rw [traversal_eq_keys hb, length_keys, size, cnt_eq_realCnt hc]

/-- C7: copying a well-formed set reproduces it exactly (same keys, same
structure), and erasing a key from the copy removes it from the copy while
`find` on the original still locates it. -/
theorem C7_copy_independence {α : Type u} [LinearOrder α] (a : Tree α) (h : WF a = true) :
    copyTree a = a ∧ keys (copyTree a) = keys a ∧
    (∀ k, k ∈ keys a → ∃ b2, AVLErase (copyTree a) k = some b2 ∧ k ∉ keys b2 ∧
      keyOf (AVLFind a k) = some k) := by
  rw [WF_iff] at h
  obtain ⟨hb, ha, hc, hp⟩ := h
  have hpb := parentsBelow_of_parentsOk hp
  have hcopy : copyTree a = a := by
    rw [copyTree_eq a hc hpb]
    exact setParent_eq_self hp
  refine ⟨hcopy, by rw [hcopy], ?_⟩
  intro k hmem
  obtain ⟨b2, heq, hkeys, _, _, _, _, _, _, _, _⟩ :=
    AVLErase_mem_spec a k hb ha hc hpb hmem
  refine ⟨b2, by rw [hcopy]; exact heq, ?_, AVLFind_mem_keyOf a k hb hmem⟩
  intro hx
  exact ((hkeys k).mp hx).2 rfl

/-- C8: on every reachable set, the balance factor computed by `getBalance`
(unsigned 64-bit subtraction of the cached heights, truncated to a 32-bit
`int`) equals the exact signed difference of the true subtree heights,
`height(right) - height(left)`, at every non-null node. -/
theorem C8_balance_factor {α : Type u} [LinearOrder α] (ops : List (Op α)) (t : Tree α)
    (h : runOps ops = some t) :
    ∀ s ∈ subtrees t, s ≠ nil →
      getBalance s = some ((realHeight (rightOf s) : Int) - (realHeight (leftOf s) : Int)) := by
  obtain ⟨t2, h2, hwf⟩ := runOps_WF ops
  rw [h] at h2
  obtain rfl : t = t2 := Option.some.inj h2
  rw [WF_iff] at hwf
  exact getBalance_subtrees t hwf.2.1 hwf.2.2.1

/-- C9: no sequence of public operations on an initially empty set ever
dereferences a null node: the mutating pipeline (which contains the
unguarded dereferences inside the rotations, the inner `getBalance` calls
and `eraseMin`) always returns a tree rather than the `none` that marks
undefined behaviour.  The read-only operations are total by construction in
the embedding, their null checks being match cases. -/
theorem C9_no_null_deref {α : Type u} [LinearOrder α] (ops : List (Op α)) :
    ∃ t, runOps ops = some t := by
  obtain ⟨t, h, _⟩ := runOps_WF ops
  exact ⟨t, h⟩

/-- C10: the read-only operations (`find`, `lower_bound`, `size`, `empty`,
`begin`, `end`, cursor stepping and dereference) leave the tree completely
unchanged: as state transformers they return the state they were given. -/
theorem C10_read_only {α : Type u} [LinearOrder α] (t : Tree α) (key : α)
    (pos : Option α) :
    (findOp t key).1 = t ∧ (lowerBoundOp t key).1 = t ∧ (sizeOp t).1 = t ∧
    (emptyOp t).1 = t ∧ (beginOp t).1 = t ∧ (endOp t).1 = t ∧
    (incOp t key).1 = t ∧ (decOp t pos).1 = t ∧ (derefOp t key).1 = t :=
  ⟨rfl, rfl, rfl, rfl, rfl, rfl, rfl, rfl, rfl⟩



/-- Witness for C1: the invariants hold at the state reached by a concrete
run that exercises a rotation and a deletion. -/
theorem C1_invariants_hold_witness :
    runOps witnessOps = some witnessTree ∧
      (isBST witnessTree = true ∧ isAvl witnessTree = true ∧
        parentsOk none witnessTree = true) :=
  ⟨by decide, C1_invariants_hold witnessOps witnessTree (by decide)⟩

/-- Witness for C2 at a concrete well-formed state and key. -/
theorem C2_insert_contract_witness :
    WF witnessTree = true ∧
      (((3 : Int) ∈ keys witnessTree → AVLInsert witnessTree 3 none = some witnessTree) ∧
      ((3 : Int) ∉ keys witnessTree → ∃ t2, AVLInsert witnessTree 3 none = some t2 ∧
        WF t2 = true ∧
        (∀ x, x ∈ keys t2 ↔ x = 3 ∨ x ∈ keys witnessTree) ∧
        size t2 = size witnessTree + 1) ∧
      (∀ t2, AVLInsert witnessTree 3 none = some t2 →
        AVLInsert t2 3 none = some t2)) :=
  ⟨by decide, C2_insert_contract witnessTree 3 (by decide)⟩

/-- Witness for C3 at a concrete well-formed state and key. -/
theorem C3_erase_contract_witness :
    WF witnessTree = true ∧
      (((1 : Int) ∉ keys witnessTree → AVLErase witnessTree 1 = some witnessTree) ∧
      ((1 : Int) ∈ keys witnessTree → ∃ t2, AVLErase witnessTree 1 = some t2 ∧
        WF t2 = true ∧
        (∀ x, x ∈ keys t2 ↔ x ∈ keys witnessTree ∧ x ≠ 1) ∧
        size witnessTree = size t2 + 1) ∧
      (∀ t2, AVLErase witnessTree 1 = some t2 → AVLFind t2 1 = nil)) :=
  ⟨by decide, C3_erase_contract witnessTree 1 (by decide)⟩

/-- Witness for C4 at a concrete BST and query. -/
theorem C4_lower_bound_witness :
    isBST witnessTree2 = true ∧
      ((AVLLowerBound witnessTree2 4 = nil ↔ ∀ k ∈ keys witnessTree2, k < 4) ∧
      (∀ m, keyOf (AVLLowerBound witnessTree2 4) = some m →
        m ∈ keys witnessTree2 ∧ (4 : Int) ≤ m ∧
          ∀ k ∈ keys witnessTree2, (4 : Int) ≤ k → m ≤ k)) :=
  ⟨by decide, C4_lower_bound witnessTree2 4 (by decide)⟩

/-- Witness for C5 at a concrete well-formed state. -/
theorem C5_traversal_order_witness :
    WF witnessTree2 = true ∧
      (List.Pairwise (fun a b => a < b) (traversal witnessTree2) ∧
        traversalBwd witnessTree2 = (traversal witnessTree2).reverse) :=
  ⟨by decide, C5_traversal_order witnessTree2 (by decide)⟩

/-- Witness for C6 at a concrete run. -/
theorem C6_size_and_caches_witness :
    runOps witnessOps2 = some witnessTree2 ∧
      (size witnessTree2 = (traversal witnessTree2).length ∧
        cachesOk witnessTree2 = true) :=
  ⟨by decide, C6_size_and_caches witnessOps2 witnessTree2 (by decide)⟩

/-- Witness for C7 at a concrete well-formed state. -/
theorem C7_copy_independence_witness :
    WF witnessTree2 = true ∧
      (copyTree witnessTree2 = witnessTree2 ∧
      keys (copyTree witnessTree2) = keys witnessTree2 ∧
      (∀ k, k ∈ keys witnessTree2 → ∃ b2, AVLErase (copyTree witnessTree2) k = some b2 ∧
        k ∉ keys b2 ∧ keyOf (AVLFind witnessTree2 k) = some k)) :=
  ⟨by decide, C7_copy_independence witnessTree2 (by decide)⟩

/-- Witness for C8 at a concrete run. -/
theorem C8_balance_factor_witness :
    runOps witnessOps = some witnessTree ∧
      (∀ s ∈ subtrees witnessTree, s ≠ nil →
        getBalance s =
          some ((realHeight (rightOf s) : Int) - (realHeight (leftOf s) : Int))) :=
  ⟨by decide, C8_balance_factor witnessOps witnessTree (by decide)⟩

end AvlSet
